import Mathlib

/-!
Verification of the realm-core object store against its specification.

The definitions below are shallow embeddings of the C++ source:
* object field accessors (`ConstObj::get`, `Obj::add_int`, `Obj::set`,
  `Obj::set_null`, `Obj::set<Key>`, `Obj::update_backlinks`) from obj.cpp,
* link-list mutators (`Lst<ObjKey>::do_insert/do_set/do_remove/do_clear`)
  from list.cpp,
* the variable-sized binary array (`ArrayBinary`) from ArrayBinary.cpp,
* list sorting (`Lst<T>::sort` / `do_sort`) from list.cpp,
* the schema-migration open protocol (modelled from the spec where the
  implementation is not part of the sources).

Machine integers are modelled as `Int`/`Nat` with explicit reduction
modulo 2^64 where the source relies on unsigned wraparound; fallible
operations return `Except LogicError`.
-/

namespace RealmCore

/-- Error codes of realm's `LogicError` used by the embedded accessors
(realm/exceptions.hpp). -/
inductive LogicError where
  | column_index_out_of_range
  | column_not_nullable
  | target_row_index_out_of_range
  | illegal_combination
  | string_too_big
  | binary_too_big
  deriving DecidableEq, Repr

/-! ## Object accessors (obj.cpp): column-index guards, add_int, set, set_null -/

/-- The column-index guard of `ConstObj::get<T>` (obj.cpp): it throws
`column_index_out_of_range` iff `col_ndx > public_column_count` — note the
strict `>` in the source (`Obj::add_int` and `Obj::set_null` use the same
test, while `Obj::set<Key>` tests `>=`). Returns the error thrown, if any. -/
def ConstObj.get_guard (publicCount colNdx : Nat) : Option LogicError :=
  if publicCount < colNdx then some .column_index_out_of_range else none

/-- The column-index guard of `Obj::set<Key>` (obj.cpp), which uses `>=`. -/
def Obj.set_key_guard (publicCount colNdx : Nat) : Option LogicError :=
  if publicCount ≤ colNdx then some .column_index_out_of_range else none

/-- 2^64 and 2^63 as integer literals (widths used by `Obj::add_int`). -/
def twoPow64 : Int := 18446744073709551616

def twoPow63 : Int := 9223372036854775808

/-- Reinterpretation of a signed 64-bit value as unsigned, i.e. the
`uint64_t(a)` casts inside the `add_wrap` lambda of `Obj::add_int`. -/
def toUInt64Model (a : Int) : Int := a % twoPow64

/-- Reinterpretation of an unsigned 64-bit value (in `[0, 2^64)`) as signed,
i.e. the final `int64_t(ua + ub)` cast of the `add_wrap` lambda. -/
def toInt64Model (u : Int) : Int := if u < twoPow63 then u else u - twoPow64

/-- The `add_wrap` lambda of `Obj::add_int` (obj.cpp): both operands are cast
to `uint64_t`, added with unsigned wraparound, and the sum is cast back to
`int64_t`. -/
def add_wrap (a b : Int) : Int :=
  toInt64Model ((toUInt64Model a + toUInt64Model b) % twoPow64)

/-- Spec-side formulation (claim C9): the two's-complement wraparound sum
`(old + v) mod 2^64` reinterpreted as signed. -/
def wrapSignedSpec (x : Int) : Int := (x + twoPow63) % twoPow64 - twoPow63

/-- Stored state of one integer column slot: the column is either
non-nullable (`ArrayInteger` leaf) or nullable (`ArrayIntNull` leaf, whose
slot may hold null). -/
inductive IntColVal where
  | nonNullable (v : Int)
  | nullable (v : Option Int)
  deriving DecidableEq, Repr

/-- `Obj::add_int` (obj.cpp): after the column-index guard (`>`, as in the
source), a nullable slot holding null throws `illegal_combination` and the
slot is left unchanged (no new state is produced); otherwise the stored value
becomes `add_wrap old value`. -/
def Obj.add_int (publicCount colNdx : Nat) (col : IntColVal) (value : Int) :
    Except LogicError IntColVal :=
  if publicCount < colNdx then .error .column_index_out_of_range
  else
    match col with
    | .nullable (some old) => .ok (.nullable (some (add_wrap old value)))
    | .nullable none => .error .illegal_combination
    | .nonNullable old => .ok (.nonNullable (add_wrap old value))

/-- `Obj::set<T>` (obj.cpp) for a value type with a null representation
(modelled as `Option V`, `value_is_null = Option.isNone`): guards in source
order — column index (`>`), then nullability — and on success the slot holds
the new value. An error means the stored slot is unchanged. -/
def Obj.set_nullable {V : Type} (publicCount colNdx : Nat) (nullable : Bool)
    (value : Option V) : Except LogicError (Option V) :=
  if publicCount < colNdx then .error .column_index_out_of_range
  else if value.isNone && !nullable then .error .column_not_nullable
  else .ok value

/-- `Obj::set_null` (obj.cpp): column-index guard (`>`, as in the source),
then the nullability guard; on success the slot becomes null. An error means
the stored slot is unchanged. -/
def Obj.set_null {V : Type} (publicCount colNdx : Nat) (nullable : Bool) :
    Except LogicError (Option V) :=
  if publicCount < colNdx then .error .column_index_out_of_range
  else if !nullable then .error .column_not_nullable
  else .ok none

/-! ## ArrayBinary (ArrayBinary.cpp): offsets array plus concatenated blob -/

/-- Byte slice `[a, b)` of a list: the bytes a `(pointer, length)` pair into
the blob denotes. -/
def slice (l : List Nat) (a b : Nat) : List Nat := (l.drop a).take (b - a)

/-- `ArrayBinary` (ArrayBinary.cpp): a two-array layout, `m_offsets` holding
the cumulative end offset of each element and `m_blob` the concatenated
payload bytes. -/
structure ArrayBinary where
  m_offsets : List Nat
  m_blob : List Nat
  deriving DecidableEq, Repr

namespace ArrayBinary

/-- `ArrayBinary::Size`: the size of the offsets array. -/
def Size (a : ArrayBinary) : Nat := a.m_offsets.length

/-- The start offset `ndx ? m_offsets.GetAsRef(ndx-1) : 0` computed by
`Get`, `GetLen`, `Insert` and `Delete`. -/
def startOf (a : ArrayBinary) (ndx : Nat) : Nat :=
  if ndx = 0 then 0 else a.m_offsets.getD (ndx - 1) 0

/-- `ArrayBinary::GetLen`: end offset minus start offset. -/
def GetLen (a : ArrayBinary) (ndx : Nat) : Nat :=
  a.m_offsets.getD ndx 0 - a.startOf ndx

/-- `ArrayBinary::Get`, returned as the byte slice of the blob that the
source's `(pointer into m_blob, GetLen)` pair denotes. -/
def Get (a : ArrayBinary) (ndx : Nat) : List Nat :=
  slice a.m_blob (a.startOf ndx) (a.m_offsets.getD ndx 0)

/-- `ArrayBinary::Insert(ndx, value, len)`: insert the bytes at position
`pos = start(ndx)` of the blob, insert `pos + len` into the offsets at `ndx`,
and adjust every following offset by `+len` (`m_offsets.Adjust(ndx+1, len)`). -/
def Insert (a : ArrayBinary) (ndx : Nat) (value : List Nat) : ArrayBinary :=
  { m_blob := a.m_blob.take (a.startOf ndx) ++ value ++ a.m_blob.drop (a.startOf ndx)
    m_offsets := a.m_offsets.take ndx ++ [a.startOf ndx + value.length] ++
      (a.m_offsets.drop ndx).map (· + value.length) }

/-- `ArrayBinary::Delete(ndx)`: remove bytes `[start, end)` from the blob,
remove the offset at `ndx`, and adjust every following offset by
`start - end` (`m_offsets.Adjust(ndx, start - end)`). -/
def Delete (a : ArrayBinary) (ndx : Nat) : ArrayBinary :=
  { m_blob := a.m_blob.take (a.startOf ndx) ++ a.m_blob.drop (a.m_offsets.getD ndx 0)
    m_offsets := a.m_offsets.take ndx ++
      (a.m_offsets.drop (ndx + 1)).map
        (· - (a.m_offsets.getD ndx 0 - a.startOf ndx)) }

/-- The representation invariant asserted by the `ArrayBinary` constructor:
offsets are non-decreasing and the blob's size equals the last offset
(`m_blob.Size() == (m_offsets.IsEmpty() ? 0 : m_offsets.Back())`; for a
non-empty list `Back` is the entry at index `length - 1`, and for an empty
one `getD` yields the required `0`). -/
def WF (a : ArrayBinary) : Prop :=
  a.m_offsets.Pairwise (· ≤ ·) ∧
  a.m_blob.length = a.m_offsets.getD (a.m_offsets.length - 1) 0

end ArrayBinary

/-! ## Lst sorting (list.cpp): do_sort and Lst<T>::sort -/

/-- The index-vector preparation of `do_sort` (list.cpp): if the list shrank
(`size < indices.size()`) the vector is cleared, then the missing indices
`[old_size, size)` are appended. -/
def do_sort_fill (indices : List Nat) (size : Nat) : List Nat :=
  (if size < indices.length then [] else indices) ++
    (List.range size).drop (if size < indices.length then 0 else indices.length)

/-- `do_sort` (list.cpp): prepare the indices then `std::sort` them with the
strict comparator `comp`.  `std::sort` is modelled by `List.mergeSort` on the
non-strict complement of `comp`, which realizes exactly the sorted-permutation
contract the C++ standard specifies for `std::sort`. -/
def do_sort (indices : List Nat) (size : Nat) (comp : Nat → Nat → Bool) : List Nat :=
  (do_sort_fill indices size).mergeSort (fun i j => ! comp j i)

/-- `unresolved_to_null` instantiated at `ObjKey` (modelled as `Int`, the
63-bit key value): a key with the sign bit set (negative value, the
unresolved/tombstone mark) compares as null, i.e. as `⊥` of `WithBot`. -/
def unresolved_to_null (k : Int) : WithBot Int := if k < 0 then ⊥ else some k

/-- The comparison key of list element `i`: the stored value
(`tree->get(i)`) sent through `unresolved_to_null`, modelled as an arbitrary
map `conv` into `WithBot β` (`⊥` is null; for scalar element types `conv` is
`some`, for keys it is `unresolved_to_null`). -/
def lstVal {α β : Type} [Inhabited α] (vals : List α) (conv : α → WithBot β)
    (i : Nat) : WithBot β :=
  conv (vals.getD i default)

/-- `Lst<T>::sort(indices, ascending)` (list.cpp) for `ascending = true`:
`do_sort` over the list's size with the comparator
`unresolved_to_null(tree->get(i1)) < unresolved_to_null(tree->get(i2))`. -/
def Lst.sort_ascending {α β : Type} [LinearOrder β] [Inhabited α]
    (vals : List α) (conv : α → WithBot β) (indices : List Nat) : List Nat :=
  do_sort indices vals.length
    (fun i1 i2 => decide (lstVal vals conv i1 < lstVal vals conv i2))

/-! ## Single-link column model (obj.cpp): Obj::set<Key> and backlinks

A table with one `Link` column whose target table is the table itself (realm
permits self-referential link columns), plus the corresponding backlink
column. The protocol under verification — `update_backlinks`,
`add_backlink`, `remove_one_backlink`, `nullify_link` and the guard/order of
`Obj::set<Key>` — is embedded from obj.cpp; the parts of object removal that
live outside the sources (`ClusterTree::erase`, `CascadeState`,
`TableFriend::remove_recursive`) are modelled from the spec and marked as
such. -/

/-- `ObjKey`, a 63-bit signed key value. -/
abbrev Key := Int

/-- Replication instructions emitted by the embedded operations
(`instr_Set` via `Replication::set`, obj.cpp). -/
inductive Instr where
  | instr_Set (origin : Key) (value : Option Key)
  deriving DecidableEq, Repr

/-- One object of the link table: the value of the `Link` column (`none` is
`null_key`) and the backlink column for that column, in storage order. -/
structure AObj where
  link : Option Key
  backlinks : List Key
  deriving DecidableEq, Repr

/-- The table: cluster entries as an association list from `ObjKey` to
object, the `StrongLinks` attribute of the link column, and the replication
log of the current transaction. -/
structure ATable where
  objs : List (Key × AObj)
  strong : Bool
  repl : List Instr
  deriving DecidableEq, Repr

/-- Key lookup in a cluster tree (`Table::get_object`), generic in the
stored row type. -/
def lookupA {α : Type} (objs : List (Key × α)) (k : Key) : Option α :=
  (objs.find? (fun p => decide (p.1 = k))).map Prod.snd

/-- Point update of the row stored under `k`. -/
def updateA {α : Type} (objs : List (Key × α)) (k : Key) (f : α → α) :
    List (Key × α) :=
  objs.map (fun p => if p.1 = k then (p.1, f p.2) else p)

/-- Removal of the cluster entry stored under `k`. -/
def eraseA {α : Type} (objs : List (Key × α)) (k : Key) : List (Key × α) :=
  objs.filter (fun p => decide (p.1 ≠ k))

/-- Point update under an optional key (`null_key` leaves the table alone);
the shape in which `update_backlinks` touches the old and new targets. -/
def updateOpt {α : Type} (objs : List (Key × α)) (k : Option Key) (f : α → α) :
    List (Key × α) :=
  match k with
  | some t => updateA objs t f
  | none => objs

/-- The link column value of object `o` (`none` when `o` is absent or holds
`null_key`). -/
def linkOf (objs : List (Key × AObj)) (o : Key) : Option Key :=
  (lookupA objs o).bind AObj.link

namespace ATable

/-- `Obj::add_backlink` via `ArrayBacklink::add` (obj.cpp): append the
origin key to the target's backlink column. -/
def add_backlink (st : ATable) (target : Key) (origin : Key) : ATable :=
  { st with objs := updateA st.objs target (fun ob =>
      { ob with backlinks := ob.backlinks ++ [origin] }) }

/-- `Obj::remove_one_backlink` via `ArrayBacklink::remove` (obj.cpp): remove
one occurrence of the origin key from the target's backlink column. -/
def remove_one_backlink (st : ATable) (target : Key) (origin : Key) : ATable :=
  { st with objs := updateA st.objs target (fun ob =>
      { ob with backlinks := ob.backlinks.erase origin }) }

/-- `ConstObj::get_backlink_count` (obj.cpp) for the backlink column of the
link column (zero for an absent object). -/
def backlink_count (st : ATable) (target : Key) : Nat :=
  ((lookupA st.objs target).map (fun ob => ob.backlinks.length)).getD 0

/-- `Obj::update_backlinks(col_ndx, old_key, new_key, state)` (obj.cpp): if
`old_key` is not null, remove one backlink for this object from the old
target, and when the column has `StrongLinks` and the old target's remaining
backlink count is zero push the old target onto the cascade state and report
`recurse`; if `new_key` is not null, add one backlink to the new target.
Returns `(recurse, cascade rows, updated table)`. -/
def update_backlinks (st : ATable) (okey : Key) (oldk newk : Option Key) :
    Bool × List Key × ATable :=
  let p1 : Bool × List Key × ATable :=
    match oldk with
    | some t =>
      let st1 := st.remove_one_backlink t okey
      if st.strong && decide (st1.backlink_count t = 0) then (true, [t], st1)
      else (false, [], st1)
    | none => (false, [], st)
  match newk with
  | some u => (p1.1, p1.2.1, p1.2.2.add_backlink u okey)
  | none => p1

/-- `Obj::nullify_link` (obj.cpp), single-link branch: the origin's link
column (which the source asserts to hold `target`) is set to `null_key` and
`instr_Set` is emitted to the replication sink. -/
def nullify_link (st : ATable) (origin : Key) (target : Key) : ATable :=
  { st with
    objs := updateA st.objs origin (fun ob => { ob with link := none })
    repl := st.repl ++ [Instr.instr_Set origin none] }

/-- Modelled from the spec: the removal of one object, the body that
`Table::remove_object` / `ClusterTree::erase` with a `CascadeState` performs
(that implementation is not among the sources; spec §3: objects are
"destroyed via `remove_object` (which, in the strong-link case, recursively
removes objects that lose their last strong incoming link)").  Every origin
listed in `k`'s backlink column has its link nullified through
`nullify_link` (obj.cpp); `k`'s own outgoing link gives up one backlink at
its target through `remove_one_backlink` (obj.cpp), scheduling the target
for cascade when the column is strong and the count drops to zero; finally
`k`'s row is erased.  Returns the cascade rows grown by this removal. -/
def remove_object_once (st : ATable) (k : Key) : ATable × List Key :=
  match lookupA st.objs k with
  | none => (st, [])
  | some ob =>
    let st1 := ob.backlinks.foldl (fun s o => s.nullify_link o k) st
    let p : ATable × List Key :=
      match ob.link with
      | some t =>
        if t = k then (st1, [])
        else
          let st2 := st1.remove_one_backlink t k
          if st1.strong && decide (st2.backlink_count t = 0) then (st2, [t])
          else (st2, [])
      | none => (st1, [])
    ({ p.1 with objs := eraseA p.1.objs k }, p.2)

/-- Modelled from the spec: `_impl::TableFriend::remove_recursive` (spec
§4.4 step 5: "If the cascade set is non-empty, recursively remove those
objects (each recursion may grow the set)").  `fuel` bounds the recursion;
each step erases one present object, so the table size at the call site is
sufficient fuel. -/
def remove_recursive (st : ATable) : Nat → List Key → ATable
  | 0, _ => st
  | _ + 1, [] => st
  | fuel + 1, k :: rest =>
    let p := st.remove_object_once k
    p.1.remove_recursive fuel (rest ++ p.2)

/-- `Table::is_valid(key)` from the target-validity guard of
`Obj::set<Key>` (`target_key != null_key && !target_table->is_valid(...)`). -/
def is_valid (st : ATable) (target : Option Key) : Bool :=
  match target with
  | none => true
  | some t => (lookupA st.objs t).isSome

/-- `Obj::set<Key>(col_ndx, target_key)` (obj.cpp).  The column-index guard
(`>=`, embedded separately as `Obj.set_key_guard`) is pre-discharged by
fixing the single in-range link column.  An invalid non-null target throws
`target_row_index_out_of_range`; when the new key equals the stored key
nothing is mutated; otherwise `update_backlinks` runs, the column is
written, `instr_Set` is emitted, and when `recurse` was reported the cascade
rows are removed recursively. -/
def set_key (st : ATable) (okey : Key) (target : Option Key) :
    Except LogicError ATable :=
  if !st.is_valid target then .error .target_row_index_out_of_range
  else
    match lookupA st.objs okey with
    | none => .ok st
    | some ob =>
      if target = ob.link then .ok st
      else
        let r := st.update_backlinks okey ob.link target
        let st2 : ATable := { r.2.2 with
          objs := updateA r.2.2.objs okey (fun o => { o with link := target }) }
        let st3 : ATable := { st2 with
          repl := st2.repl ++ [Instr.instr_Set okey target] }
        .ok (if r.1 then st3.remove_recursive st3.objs.length r.2.1 else st3)

/-- Modelled from the spec: `Table::remove_object(key)` — remove the row and
process the cascade it causes. -/
def remove_object (st : ATable) (k : Key) : ATable :=
  st.remove_recursive st.objs.length [k]

end ATable

/-- The link-mutating operations of the single-link model (claim C1). -/
inductive AOp where
  | set_key (okey : Key) (target : Option Key)
  | remove_object (k : Key)
  deriving DecidableEq, Repr

/-- Run one operation; a throwing `set_key` completes without touching the
table. -/
def applyA (st : ATable) : AOp → ATable
  | .set_key o t => ((st.set_key o t).toOption).getD st
  | .remove_object k => st.remove_object k

/-- The number of references to `k` held in the link column summed over all
origin objects — claim C1's `count(o.c == k)`. -/
def refCountA (st : ATable) (k : Key) : Nat :=
  (st.objs.filter (fun p => p.2.link == some k)).length

/-- The inductive link-consistency invariant of the single-link model:
cluster keys are unique; backlink columns have no duplicate origin (a single
link column contributes at most one reference per origin); every backlink
entry `o` of an object `k` is matched by `o`'s link column holding `k`; and
every stored link `k → t` has `t` present with `k` among `t`'s backlinks. -/
def ConsistentA (st : ATable) : Prop :=
  (st.objs.map Prod.fst).Nodup ∧
  (∀ p ∈ st.objs, p.2.backlinks.Nodup) ∧
  (∀ p ∈ st.objs, ∀ o ∈ p.2.backlinks, linkOf st.objs o = some p.1) ∧
  (∀ p ∈ st.objs, ∀ t ∈ p.2.link.toList,
    ∃ q ∈ st.objs, q.1 = t ∧ p.1 ∈ q.2.backlinks)

instance (st : ATable) : Decidable (ConsistentA st) := by
  unfold ConsistentA
  infer_instance

/-! ## Link-list model (list.cpp): Lst<ObjKey> backlink maintenance

An origin table whose objects each hold one `LinkList` column (the
`BPlusTree<ObjKey>` behind a `Lst<ObjKey>`; entries may be `null_key`,
modelled as `none`), and the link-target table with the backlink column for
(origin table, that column).  `do_insert`, `do_set`, `do_remove` and
`do_clear` are embedded from list.cpp.  The collection helpers they call
(`set_backlink`, `replace_backlink`, `remove_backlink`) and the cascading
`remove_recursive` are not among the sources and are modelled from the
spec's backlink protocol (§4.4, "insert/set/remove all route through the
same backlink-maintenance protocol"), mirroring the `update_backlinks`
embedding above. -/

/-- The two tables of the list model: origin rows are the list-column
values, target rows are the backlink-column entries (origin keys), plus the
`embedded` flag of the target table. -/
structure BState where
  originObjs : List (Key × List (Option Key))
  targetObjs : List (Key × List Key)
  embedded : Bool
  deriving DecidableEq, Repr

namespace BState

/-- The stored list of origin object `okey` (empty for an absent origin). -/
def get_list (st : BState) (okey : Key) : List (Option Key) :=
  (lookupA st.originObjs okey).getD []

/-- Modelled from the spec: `set_backlink` as called by
`Lst<ObjKey>::do_insert` — add one backlink entry for the origin object at
the (non-null) target, the protocol of `Obj::add_backlink`. -/
def set_backlink (st : BState) (okey : Key) (target : Option Key) : BState :=
  match target with
  | some t =>
    { st with targetObjs := updateA st.targetObjs t (fun bl => bl ++ [okey]) }
  | none => st

/-- Modelled from the spec: `remove_backlink` as called by
`Lst<ObjKey>::do_set/do_remove` — remove one backlink entry for the origin
at the (non-null) target and report the cascade rows: for an embedded
target whose backlink count dropped to zero the row is scheduled for
recursive removal (`CascadeState::Mode::Strong`). -/
def remove_backlink (st : BState) (okey : Key) (target : Option Key) :
    Bool × List Key × BState :=
  match target with
  | some t =>
    let st1 : BState :=
      { st with targetObjs := updateA st.targetObjs t (fun bl => bl.erase okey) }
    if st.embedded && decide (((lookupA st1.targetObjs t).getD []).length = 0) then
      (true, [t], st1)
    else (false, [], st1)
  | none => (false, [], st)

/-- Modelled from the spec: `_impl::TableFriend::remove_recursive` for the
list model — delete each scheduled target row and nullify the remaining
references to it in every origin list (`ArrayKey::nullify` via
`Obj::nullify_link`, obj.cpp).  Targets hold no outgoing links here, so the
cascade set cannot grow. -/
def remove_recursive (st : BState) (rows : List Key) : BState :=
  rows.foldl (fun s r =>
    { s with
      targetObjs := eraseA s.targetObjs r
      originObjs := s.originObjs.map (fun p =>
        (p.1, p.2.filter (fun e => !(e == some r)))) }) st

/-- `Lst<ObjKey>::do_insert(ndx, target_key)` (list.cpp): `set_backlink`,
then insert into the tree. -/
def do_insert (st : BState) (okey : Key) (ndx : Nat) (target : Option Key) :
    BState :=
  let st1 := st.set_backlink okey target
  { st1 with originObjs :=
      updateA st1.originObjs okey (fun l => l.insertIdx ndx target) }

/-- `Lst<ObjKey>::do_set(ndx, target_key)` (list.cpp): read the old key,
`replace_backlink` (= remove old + add new), write the tree slot, and
remove the cascade rows recursively when reported. -/
def do_set (st : BState) (okey : Key) (ndx : Nat) (target : Option Key) :
    BState :=
  let oldk := (st.get_list okey).getD ndx none
  let r := st.remove_backlink okey oldk
  let st2 := r.2.2.set_backlink okey target
  let st3 : BState :=
    { st2 with originObjs := updateA st2.originObjs okey (fun l => l.set ndx target) }
  if r.1 then st3.remove_recursive r.2.1 else st3

/-- `Lst<ObjKey>::do_remove(ndx)` (list.cpp): read the old key,
`remove_backlink`, erase the tree slot, and remove the cascade rows
recursively when reported. -/
def do_remove (st : BState) (okey : Key) (ndx : Nat) : BState :=
  let oldk := (st.get_list okey).getD ndx none
  let r := st.remove_backlink okey oldk
  let st2 : BState :=
    { r.2.2 with originObjs := updateA r.2.2.originObjs okey (fun l => l.eraseIdx ndx) }
  if r.1 then st2.remove_recursive r.2.1 else st2

/-- The non-embedded loop of `Lst<ObjKey>::do_clear` (list.cpp):
`while (ndx--) { do_set(ndx, null_key); m_tree->erase(ndx); }`. -/
def clear_loop (st : BState) (okey : Key) : Nat → BState
  | 0 => st
  | n + 1 =>
    let st1 := st.do_set okey n none
    let st2 : BState :=
      { st1 with originObjs := updateA st1.originObjs okey (fun l => l.eraseIdx n) }
    st2.clear_loop okey n

/-- `Lst<ObjKey>::do_clear` (list.cpp): for a non-embedded target table,
null out and erase each slot from the back; for an embedded target table,
remove one backlink (the sole one) from every referenced target, schedule
every referenced target for deletion, clear the tree, and remove the
scheduled rows recursively. -/
def do_clear (st : BState) (okey : Key) : BState :=
  if !st.embedded then st.clear_loop okey (st.get_list okey).length
  else
    let l := st.get_list okey
    let st1 := l.foldl (fun s e =>
      match e with
      | some t =>
        { s with targetObjs := updateA s.targetObjs t (fun bl => bl.erase okey) }
      | none => s) st
    let st2 : BState :=
      { st1 with originObjs := updateA st1.originObjs okey (fun _ => []) }
    st2.remove_recursive (l.filterMap id)

end BState

/-- The link-mutating list operations (claim C1). -/
inductive BOp where
  | insert (okey : Key) (ndx : Nat) (target : Option Key)
  | set (okey : Key) (ndx : Nat) (target : Option Key)
  | remove (okey : Key) (ndx : Nat)
  | clear (okey : Key)
  deriving DecidableEq, Repr

/-- Run one list operation. -/
def applyB (st : BState) : BOp → BState
  | .insert o n t => st.do_insert o n t
  | .set o n t => st.do_set o n t
  | .remove o n => st.do_remove o n
  | .clear o => st.do_clear o

/-- The validity preconditions under which an operation completes without
throwing: the origin object exists, the index is in range, and a non-null
target key refers to an existing target row. -/
def validB (st : BState) : BOp → Prop
  | .insert o n t => (lookupA st.originObjs o).isSome ∧ n ≤ (st.get_list o).length ∧
      ∀ u, t = some u → (lookupA st.targetObjs u).isSome
  | .set o n t => (lookupA st.originObjs o).isSome ∧ n < (st.get_list o).length ∧
      ∀ u, t = some u → (lookupA st.targetObjs u).isSome
  | .remove o n => (lookupA st.originObjs o).isSome ∧ n < (st.get_list o).length
  | .clear o => (lookupA st.originObjs o).isSome

/-- The number of references to target `t` held in the list column summed
over all origin objects, counting each occurrence in a list — claim C1's
`count(o.c == k)` for the list column. -/
def refCountB (st : BState) (t : Key) : Nat :=
  (st.originObjs.map (fun p => p.2.count (some t))).sum

/-- The inductive link-consistency invariant of the list model: keys of both
tables are unique; for every target row and origin row, the number of
backlink entries naming this origin equals the number of occurrences of the
target in this origin's list; every backlink entry names an existing origin;
and every non-null list entry names an existing target. -/
def ConsistentB (st : BState) : Prop :=
  (st.originObjs.map Prod.fst).Nodup ∧
  (st.targetObjs.map Prod.fst).Nodup ∧
  (∀ q ∈ st.targetObjs, ∀ p ∈ st.originObjs,
    q.2.count p.1 = p.2.count (some q.1)) ∧
  (∀ q ∈ st.targetObjs, ∀ o ∈ q.2, o ∈ st.originObjs.map Prod.fst) ∧
  (∀ p ∈ st.originObjs, ∀ e ∈ p.2, ∀ t ∈ e.toList,
    t ∈ st.targetObjs.map Prod.fst)

instance (st : BState) : Decidable (ConsistentB st) := by
  unfold ConsistentB
  infer_instance

/-- `n`-fold `List.erase` of the same key; the shape in which the embedded
branch of `do_clear` hits one target's backlink column once per list
occurrence. -/
def erase_iter (o : Key) : Nat → List Key → List Key
  | 0, bl => bl
  | n + 1, bl => erase_iter o n (bl.erase o)

/-- A concrete two-object single-link table (object 1 links to object 2,
recorded in 2's backlink column) used to instantiate the theorems. -/
def sampleATable : ATable :=
  { objs := [(1, { link := some 2, backlinks := [] }),
             (2, { link := none, backlinks := [1] })]
    strong := true
    repl := [] }

/-- A concrete origin/target list-column pair (origin 1's list holds target
5 once, matched by 5's backlink column) used to instantiate the theorems. -/
def sampleBState : BState :=
  { originObjs := [(1, [some 5])]
    targetObjs := [(5, [1])]
    embedded := false }

/-- The embedded-target variant of `sampleBState`: origin 1's list holds
embedded target 5, whose sole backlink is origin 1. -/
def sampleBEmbedded : BState :=
  { originObjs := [(1, [some 5])]
    targetObjs := [(5, [1])]
    embedded := true }

/-! ## Schema migration (spec §4.7; exercised by tests/realm.cpp) -/

/-- Modelled from the spec: the persisted Realm file as `get_shared_realm`
observes it — the stored schema version and, per table, the column count
(the shape the rollback test inspects). -/
structure RealmFile where
  schema_version : Nat
  data : List (String × Nat)
  deriving DecidableEq, Repr

/-- Modelled from the spec: the open configuration — desired schema version,
desired schema (table name with column count), and the user migration
callback, which receives read access to the old state and write access to
the new state and may throw (a thrown value is a `String`, as in the
rollback test). -/
structure OpenConfig where
  schema_version : Nat
  required : List (String × Nat)
  migration : RealmFile → RealmFile → Except String Unit

/-- Modelled from the spec (§4.7 steps 3–4): `get_shared_realm` — when the
persisted schema version differs from the desired one, begin a write, apply
the schema changes, and invoke the migration callback with the old and the
new state; on a thrown error the write is cancelled (the new slabs are
abandoned, so the prior version stays untouched) and the exception surfaces
to the caller; otherwise the new version is committed.  Returns the
persisted file after the call together with the call's outcome. -/
def open_shared_realm (file : RealmFile) (cfg : OpenConfig) :
    RealmFile × Except String Unit :=
  if file.schema_version = cfg.schema_version then (file, .ok ())
  else
    let migrated : RealmFile :=
      { schema_version := cfg.schema_version, data := cfg.required }
    match cfg.migration file migrated with
    | .error e => (file, .error e)
    | .ok _ => (migrated, .ok ())

/-- The pre-migration file of the rollback test: schema version 1, table
`object` with one column. -/
def sampleRealmFile : RealmFile :=
  { schema_version := 1, data := [("object", 1)] }

/-- The migration config of the rollback test at first open: version 2, a
second column, and a callback that throws the string `error`. -/
def sampleThrowingCfg : OpenConfig :=
  { schema_version := 2
    required := [("object", 2)]
    migration := fun _ _ => .error "error" }

/-- The same configuration at the retry, whose callback now completes. -/
def sampleRetryCfg : OpenConfig :=
  { schema_version := 2
    required := [("object", 2)]
    migration := fun _ _ => .ok () }

/-! ## Theorems -/

theorem lookupA_cons {α : Type} (p : Key × α) (rest : List (Key × α)) (x : Key) :
    lookupA (p :: rest) x = if p.1 = x then some p.2 else lookupA rest x := by
  simp only [lookupA, List.find?_cons]
  by_cases h : p.1 = x <;> simp [h]

theorem lookupA_updateA {α : Type} (objs : List (Key × α)) (k : Key) (f : α → α)
    (x : Key) :
    lookupA (updateA objs k f) x =
      if x = k then (lookupA objs k).map f else lookupA objs x := by
  induction objs with
  | nil => simp [lookupA, updateA]
  | cons p rest ih =>
    have hstep : updateA (p :: rest) k f =
        (if p.1 = k then (p.1, f p.2) else p) :: updateA rest k f := by
      simp [updateA]
    rw [hstep]
    rcases eq_or_ne p.1 k with hpk | hpk
    · subst hpk
      rw [if_pos rfl]
      rcases eq_or_ne p.1 x with hpx | hpx
      · rw [lookupA_cons, if_pos hpx, if_pos hpx.symm, lookupA_cons, if_pos rfl]
        rfl
      · rw [lookupA_cons, if_neg hpx, ih,
          if_neg (fun h => hpx ((id h : x = p.1).symm)),
          if_neg (fun h => hpx ((id h : x = p.1).symm)),
          lookupA_cons, if_neg hpx]
    · rw [if_neg hpk]
      rcases eq_or_ne p.1 x with hpx | hpx
      · have hxk : ¬ x = k := by rw [← hpx]; exact hpk
        rw [lookupA_cons, if_pos hpx, if_neg hxk, lookupA_cons, if_pos hpx]
      · rw [lookupA_cons, if_neg hpx, ih]
        by_cases hxk : x = k
        · simp [hxk, lookupA_cons, hpk]
        · simp [hxk, lookupA_cons, hpx]

theorem lookupA_eraseA {α : Type} (objs : List (Key × α)) (k : Key) (x : Key) :
    lookupA (eraseA objs k) x = if x = k then none else lookupA objs x := by
  induction objs with
  | nil => simp [lookupA, eraseA]
  | cons p rest ih =>
    rcases eq_or_ne p.1 k with hpk | hpk
    · have hstep : eraseA (p :: rest) k = eraseA rest k := by
        simp [eraseA, List.filter_cons, hpk]
      rw [hstep, ih]
      by_cases hxk : x = k
      · simp [hxk]
      · have hpx : p.1 ≠ x := by rw [hpk]; exact fun h => hxk h.symm
        simp [hxk, lookupA_cons, hpx]
    · have hstep : eraseA (p :: rest) k = p :: eraseA rest k := by
        simp [eraseA, List.filter_cons, hpk]
      rw [hstep]
      rcases eq_or_ne p.1 x with hpx | hpx
      · have hxk : ¬ x = k := by rw [← hpx]; exact hpk
        rw [lookupA_cons, if_pos hpx, if_neg hxk, lookupA_cons, if_pos hpx]
      · rw [lookupA_cons, if_neg hpx, ih]
        by_cases hxk : x = k
        · simp [hxk]
        · simp [hxk, lookupA_cons, hpx]

theorem keys_updateA {α : Type} (objs : List (Key × α)) (k : Key) (f : α → α) :
    (updateA objs k f).map Prod.fst = objs.map Prod.fst := by
  induction objs with
  | nil => rfl
  | cons p rest ih =>
    by_cases hpk : p.1 = k <;> simp_all [updateA]

theorem keys_eraseA_sublist {α : Type} (objs : List (Key × α)) (k : Key) :
    ((eraseA objs k).map Prod.fst).Sublist (objs.map Prod.fst) :=
  ((List.filter_sublist _).map Prod.fst)

theorem lookupA_eq_some_of_mem {α : Type} {objs : List (Key × α)} {p : Key × α}
    (h : (objs.map Prod.fst).Nodup) (hp : p ∈ objs) :
    lookupA objs p.1 = some p.2 := by
  induction objs with
  | nil => simp at hp
  | cons q rest ih =>
    rcases List.mem_cons.mp hp with rfl | hmem
    · rw [lookupA_cons, if_pos rfl]
    · rw [List.map_cons] at h
      have hnodup := List.nodup_cons.mp h
      have hne : q.1 ≠ p.1 := by
        intro he
        exact hnodup.1 (he ▸ List.mem_map_of_mem Prod.fst hmem)
      rw [lookupA_cons, if_neg hne]
      exact ih hnodup.2 hmem

theorem mem_of_lookupA_eq_some {α : Type} {objs : List (Key × α)} {k : Key} {ob : α}
    (h : lookupA objs k = some ob) : (k, ob) ∈ objs := by
  unfold lookupA at h
  rcases hfind : objs.find? (fun p => decide (p.1 = k)) with _ | e
  · rw [hfind] at h; simp at h
  · rw [hfind] at h
    simp at h
    have hmem := List.mem_of_find?_eq_some hfind
    have hpred := List.find?_some hfind
    simp only [decide_eq_true_eq] at hpred
    have he : e = (k, ob) := by
      cases e
      simp_all
    rwa [he] at hmem

theorem lookupA_eq_none_iff {α : Type} {objs : List (Key × α)} {k : Key} :
    lookupA objs k = none ↔ k ∉ objs.map Prod.fst := by
  constructor
  · intro h hmem
    induction objs with
    | nil => simp at hmem
    | cons q rest ih =>
      rw [List.map_cons, List.mem_cons] at hmem
      rw [lookupA_cons] at h
      rcases hmem with hk | hmem2
      · rw [if_pos hk.symm] at h; simp at h
      · by_cases hq : q.1 = k
        · rw [if_pos hq] at h; simp at h
        · rw [if_neg hq] at h; exact ih h hmem2
  · intro h
    rcases hl : lookupA objs k with _ | ob
    · rfl
    · exact absurd (List.mem_map_of_mem Prod.fst (mem_of_lookupA_eq_some hl)) h

theorem nullify_objs (st : ATable) (o k : Key) :
    (st.nullify_link o k).objs =
      updateA st.objs o (fun ob => { ob with link := none }) := rfl

theorem nullify_fold_strong (bs : List Key) (st : ATable) (k : Key) :
    (bs.foldl (fun s o => s.nullify_link o k) st).strong = st.strong := by
  induction bs generalizing st with
  | nil => rfl
  | cons b rest ih => exact ih _

theorem nullify_fold_keys (bs : List Key) (st : ATable) (k : Key) :
    (bs.foldl (fun s o => s.nullify_link o k) st).objs.map Prod.fst =
      st.objs.map Prod.fst := by
  induction bs generalizing st with
  | nil => rfl
  | cons b rest ih =>
    rw [List.foldl_cons, ih, nullify_objs]
    exact keys_updateA _ _ _

theorem nullify_fold_lookup (bs : List Key) (st : ATable) (k : Key) (x : Key) :
    lookupA (bs.foldl (fun s o => s.nullify_link o k) st).objs x =
      if x ∈ bs then (lookupA st.objs x).map (fun ob => { ob with link := none })
      else lookupA st.objs x := by
  induction bs generalizing st with
  | nil => simp
  | cons b rest ih =>
    rw [List.foldl_cons, ih]
    have hbase : lookupA (st.nullify_link b k).objs x =
        if x = b then (lookupA st.objs x).map (fun ob => { ob with link := none })
        else lookupA st.objs x := by
      rw [nullify_objs, lookupA_updateA]
      by_cases hxb : x = b
      · subst hxb; simp
      · simp [hxb]
    by_cases hxr : x ∈ rest
    · rw [if_pos hxr, hbase, if_pos (List.mem_cons.mpr (Or.inr hxr))]
      by_cases hxb : x = b
      · rw [if_pos hxb, Option.map_map]
        rfl
      · rw [if_neg hxb]
    · rw [if_neg hxr, hbase]
      by_cases hxb : x = b
      · rw [if_pos hxb, if_pos (List.mem_cons.mpr (Or.inl hxb))]
      · rw [if_neg hxb, if_neg (by simp [hxb, hxr])]

theorem consistent_keys_nodup {st : ATable} (h : ConsistentA st) :
    (st.objs.map Prod.fst).Nodup := h.1

theorem consistent_blNodup {st : ATable} (h : ConsistentA st) {x : Key}
    {obx : AObj} (hx : lookupA st.objs x = some obx) : obx.backlinks.Nodup :=
  h.2.1 (x, obx) (mem_of_lookupA_eq_some hx)

theorem consistent_blSound {st : ATable} (h : ConsistentA st) {x : Key}
    {obx : AObj} (hx : lookupA st.objs x = some obx) {o : Key}
    (ho : o ∈ obx.backlinks) : linkOf st.objs o = some x :=
  h.2.2.1 (x, obx) (mem_of_lookupA_eq_some hx) o ho

theorem consistent_linkComplete {st : ATable} (h : ConsistentA st) {x : Key}
    {obx : AObj} (hx : lookupA st.objs x = some obx) {t : Key}
    (ht : obx.link = some t) :
    ∃ obt, lookupA st.objs t = some obt ∧ x ∈ obt.backlinks := by
  rcases h.2.2.2 (x, obx) (mem_of_lookupA_eq_some hx) t (by simp [ht]) with
    ⟨q, hq, hqt, hxq⟩
  refine ⟨q.2, ?_, hxq⟩
  rw [← hqt]
  exact lookupA_eq_some_of_mem h.1 hq

theorem linkOf_eq_some_iff {objs : List (Key × AObj)} {o t : Key} :
    linkOf objs o = some t ↔
      ∃ ob, lookupA objs o = some ob ∧ ob.link = some t := by
  unfold linkOf
  rcases h : lookupA objs o with _ | ob <;> simp [h]

theorem remove_one_backlink_objs (st : ATable) (t o : Key) :
    (st.remove_one_backlink t o).objs =
      updateA st.objs t (fun ob => { ob with backlinks := ob.backlinks.erase o }) := rfl

theorem add_backlink_objs (st : ATable) (t o : Key) :
    (st.add_backlink t o).objs =
      updateA st.objs t (fun ob => { ob with backlinks := ob.backlinks ++ [o] }) := rfl

/-- Auxiliary: erasing object `k` after nullifying all of its incoming links
preserves the invariant, provided `k`'s own link (if any) pointed back to `k`
itself. -/
theorem consistent_erase_nullify (st : ATable) (k : Key) (ob : AObj)
    (h : ConsistentA st) (hk : lookupA st.objs k = some ob)
    (hself : ∀ t, ob.link = some t → t = k)
    (F : ATable)
    (hFobjs : F.objs =
      eraseA (ob.backlinks.foldl (fun s o => s.nullify_link o k) st).objs k) :
    ConsistentA F := by
  have hkeys1 := nullify_fold_keys ob.backlinks st k
  have hlook1 := nullify_fold_lookup ob.backlinks st k
  have hF : ∀ x, lookupA F.objs x =
      if x = k then none
      else if x ∈ ob.backlinks then
        (lookupA st.objs x).map (fun o => { o with link := none })
      else lookupA st.objs x := by
    intro x
    rw [hFobjs, lookupA_eraseA]
    by_cases hxk : x = k
    · simp [hxk]
    · rw [if_neg hxk, if_neg hxk, hlook1]
  have hFkeysSub : (F.objs.map Prod.fst).Sublist (st.objs.map Prod.fst) := by
    rw [hFobjs]
    have h1 := keys_eraseA_sublist
      (ob.backlinks.foldl (fun s o => s.nullify_link o k) st).objs k
    rwa [hkeys1] at h1
  have hFnodup : (F.objs.map Prod.fst).Nodup := hFkeysSub.nodup h.1
  refine ⟨hFnodup, ?_, ?_, ?_⟩
  · -- backlink columns stay duplicate-free
    intro p hp
    have hpx := lookupA_eq_some_of_mem hFnodup hp
    rw [hF p.1] at hpx
    by_cases hxk : p.1 = k
    · rw [if_pos hxk] at hpx; simp at hpx
    · rw [if_neg hxk] at hpx
      by_cases hxb : p.1 ∈ ob.backlinks
      · rw [if_pos hxb] at hpx
        rcases Option.map_eq_some'.mp hpx with ⟨obx, hobx, hval⟩
        have hn := consistent_blNodup h hobx
        rw [← hval]
        exact hn
      · rw [if_neg hxb] at hpx
        exact consistent_blNodup h hpx
  · -- backlink entries are matched by forward links
    intro p hp o ho
    have hpx := lookupA_eq_some_of_mem hFnodup hp
    rw [hF p.1] at hpx
    by_cases hxk : p.1 = k
    · rw [if_pos hxk] at hpx; simp at hpx
    · rw [if_neg hxk] at hpx
      -- in both subcases p.2.backlinks are the backlinks of the old object
      have hobx : ∃ obx, lookupA st.objs p.1 = some obx ∧
          p.2.backlinks = obx.backlinks := by
        by_cases hxb : p.1 ∈ ob.backlinks
        · rw [if_pos hxb] at hpx
          rcases Option.map_eq_some'.mp hpx with ⟨obx, hx, hval⟩
          exact ⟨obx, hx, by rw [← hval]⟩
        · rw [if_neg hxb] at hpx
          exact ⟨p.2, hpx, rfl⟩
      rcases hobx with ⟨obx, hx, hbl⟩
      rw [hbl] at ho
      have hlink := consistent_blSound h hx ho
      have hok : o ≠ k := by
        intro he
        subst he
        rcases linkOf_eq_some_iff.mp hlink with ⟨obo, hobo, holink⟩
        rw [hk] at hobo
        cases hobo
        exact hxk (hself _ holink)
      have honb : o ∉ ob.backlinks := by
        intro hmem
        have h2 := consistent_blSound h hk hmem
        rw [hlink] at h2
        cases h2
        exact hxk rfl
      unfold linkOf
      rw [hF o, if_neg hok, if_neg honb]
      exact hlink
  · -- forward links land on present objects carrying the backlink
    intro p hp t' ht'
    rw [Option.mem_toList, Option.mem_def] at ht'
    have hpx := lookupA_eq_some_of_mem hFnodup hp
    rw [hF p.1] at hpx
    by_cases hxk : p.1 = k
    · rw [if_pos hxk] at hpx; simp at hpx
    · rw [if_neg hxk] at hpx
      by_cases hxb : p.1 ∈ ob.backlinks
      · -- the link column was nullified: no forward link to account for
        rw [if_pos hxb] at hpx
        rcases Option.map_eq_some'.mp hpx with ⟨obx, _, hval⟩
        rw [← hval] at ht'
        simp at ht'
      · rw [if_neg hxb] at hpx
        rcases consistent_linkComplete h hpx ht' with ⟨obt, hobt, hmem⟩
        have htk : t' ≠ k := by
          intro he
          subst he
          rw [hk] at hobt
          cases hobt
          exact hxb hmem
        by_cases htb : t' ∈ ob.backlinks
        · refine ⟨(t', { obt with link := none }), ?_, rfl, hmem⟩
          apply mem_of_lookupA_eq_some
          rw [hF t', if_neg htk, if_pos htb, hobt]
          rfl
        · refine ⟨(t', obt), ?_, rfl, hmem⟩
          apply mem_of_lookupA_eq_some
          rw [hF t', if_neg htk, if_neg htb]
          exact hobt

/-- Auxiliary: erasing object `k` after nullifying its incoming links and
removing the one backlink its outgoing link `k → t` (`t ≠ k`) held at `t`
preserves the invariant. -/
theorem consistent_erase_nullify_eb (st : ATable) (k t : Key) (ob : AObj)
    (h : ConsistentA st) (hk : lookupA st.objs k = some ob)
    (hlink : ob.link = some t) (htk : t ≠ k)
    (F : ATable)
    (hFobjs : F.objs =
      eraseA (updateA
        (ob.backlinks.foldl (fun s o => s.nullify_link o k) st).objs t
        (fun o => { o with backlinks := o.backlinks.erase k })) k) :
    ConsistentA F := by
  have hkeys1 := nullify_fold_keys ob.backlinks st k
  have hlook1 := nullify_fold_lookup ob.backlinks st k
  have hF : ∀ x, lookupA F.objs x =
      if x = k then none
      else if x = t then
        ((if t ∈ ob.backlinks then
            (lookupA st.objs t).map (fun o => { o with link := none })
          else lookupA st.objs t)).map
          (fun o => { o with backlinks := o.backlinks.erase k })
      else if x ∈ ob.backlinks then
        (lookupA st.objs x).map (fun o => { o with link := none })
      else lookupA st.objs x := by
    intro x
    rw [hFobjs, lookupA_eraseA]
    by_cases hxk : x = k
    · simp [hxk]
    · rw [if_neg hxk, if_neg hxk, lookupA_updateA]
      by_cases hxt : x = t
      · rw [if_pos hxt, if_pos hxt, hlook1]
      · rw [if_neg hxt, if_neg hxt, hlook1]
  have hFkeysSub : (F.objs.map Prod.fst).Sublist (st.objs.map Prod.fst) := by
    rw [hFobjs]
    have h1 := keys_eraseA_sublist (updateA
      (ob.backlinks.foldl (fun s o => s.nullify_link o k) st).objs t
      (fun o => { o with backlinks := o.backlinks.erase k })) k
    rwa [keys_updateA, hkeys1] at h1
  have hFnodup : (F.objs.map Prod.fst).Nodup := hFkeysSub.nodup h.1
  -- decomposition of any surviving object in terms of the old table
  have hdecomp : ∀ p, p ∈ F.objs → p.1 ≠ k ∧ ∃ obx,
      lookupA st.objs p.1 = some obx ∧
      p.2.link = (if p.1 ∈ ob.backlinks then none else obx.link) ∧
      p.2.backlinks =
        (if p.1 = t then obx.backlinks.erase k else obx.backlinks) := by
    intro p hp
    have hpx := lookupA_eq_some_of_mem hFnodup hp
    rw [hF p.1] at hpx
    by_cases hxk : p.1 = k
    · rw [if_pos hxk] at hpx; simp at hpx
    · rw [if_neg hxk] at hpx
      refine ⟨hxk, ?_⟩
      by_cases hxt : p.1 = t
      · rw [if_pos hxt] at hpx
        by_cases htb : t ∈ ob.backlinks
        · rw [if_pos htb] at hpx
          rcases Option.map_eq_some'.mp hpx with ⟨oby, hy, hval⟩
          rcases Option.map_eq_some'.mp hy with ⟨obx, hx, hval2⟩
          rw [← hxt] at hx
          refine ⟨obx, hx, ?_, ?_⟩
          · rw [← hval, ← hval2, if_pos (by rw [hxt]; exact htb)]
          · rw [← hval, ← hval2, if_pos hxt]
        · rw [if_neg htb] at hpx
          rcases Option.map_eq_some'.mp hpx with ⟨obx, hx, hval⟩
          rw [← hxt] at hx
          refine ⟨obx, hx, ?_, ?_⟩
          · rw [← hval, if_neg (by rw [hxt]; exact htb)]
          · rw [← hval, if_pos hxt]
      · rw [if_neg hxt] at hpx
        by_cases hxb : p.1 ∈ ob.backlinks
        · rw [if_pos hxb] at hpx
          rcases Option.map_eq_some'.mp hpx with ⟨obx, hx, hval⟩
          exact ⟨obx, hx, by rw [← hval, if_pos hxb], by rw [← hval, if_neg hxt]⟩
        · rw [if_neg hxb] at hpx
          exact ⟨p.2, hpx, by rw [if_neg hxb], by rw [if_neg hxt]⟩
  -- surviving objects keep their backlink entries other than k
  have hsurv : ∀ y oby, y ≠ k → lookupA st.objs y = some oby →
      ∃ obF, lookupA F.objs y = some obF ∧ obF.backlinks =
        (if y = t then oby.backlinks.erase k else oby.backlinks) := by
    intro y oby hyk hy
    by_cases hyt : y = t
    · rw [hyt] at hy
      by_cases htb : t ∈ ob.backlinks
      · refine ⟨{ { oby with link := none } with
          backlinks := oby.backlinks.erase k }, ?_, by simp [hyt]⟩
        rw [hF y, if_neg hyk, if_pos hyt, if_pos htb, hy]
        rfl
      · refine ⟨{ oby with backlinks := oby.backlinks.erase k }, ?_, by simp [hyt]⟩
        rw [hF y, if_neg hyk, if_pos hyt, if_neg htb, hy]
        rfl
    · by_cases hyb : y ∈ ob.backlinks
      · refine ⟨{ oby with link := none }, ?_, by simp [hyt]⟩
        rw [hF y, if_neg hyk, if_neg hyt, if_pos hyb, hy]
        rfl
      · refine ⟨oby, ?_, by simp [hyt]⟩
        rw [hF y, if_neg hyk, if_neg hyt, if_neg hyb]
        exact hy
  refine ⟨hFnodup, ?_, ?_, ?_⟩
  · -- backlink columns stay duplicate-free
    intro p hp
    rcases hdecomp p hp with ⟨_, obx, hx, _, hbl⟩
    rw [hbl]
    by_cases hxt : p.1 = t
    · rw [if_pos hxt]
      exact (consistent_blNodup h hx).erase k
    · rw [if_neg hxt]
      exact consistent_blNodup h hx
  · -- backlink entries are matched by forward links
    intro p hp o ho
    rcases hdecomp p hp with ⟨hxk, obx, hx, _, hbl⟩
    rw [hbl] at ho
    have hob : o ∈ obx.backlinks := by
      by_cases hxt : p.1 = t
      · rw [if_pos hxt] at ho
        exact (List.erase_sublist ..).mem ho
      · rwa [if_neg hxt] at ho
    have hlinko := consistent_blSound h hx hob
    have hok : o ≠ k := by
      intro he
      subst he
      rcases linkOf_eq_some_iff.mp hlinko with ⟨obo, hobo, holink⟩
      rw [hk] at hobo
      cases hobo
      rw [hlink] at holink
      cases holink
      -- p.1 = t, so ho lives in obx.backlinks.erase k though k ∉ it
      rw [if_pos rfl] at ho
      exact (consistent_blNodup h hx).not_mem_erase ho
    have honb : o ∉ ob.backlinks := by
      intro hmem
      have h2 := consistent_blSound h hk hmem
      rw [hlinko] at h2
      cases h2
      exact hxk rfl
    rcases linkOf_eq_some_iff.mp hlinko with ⟨obo, hobo, holink⟩
    unfold linkOf
    rw [hF o, if_neg hok]
    by_cases hot : o = t
    · rw [if_pos hot, if_neg (by rw [← hot]; exact honb), ← hot, hobo]
      simp [holink]
    · rw [if_neg hot, if_neg honb, hobo]
      simp [holink]
  · -- forward links land on present objects carrying the backlink
    intro p hp t' ht'
    rw [Option.mem_toList, Option.mem_def] at ht'
    rcases hdecomp p hp with ⟨hxk, obx, hx, hlinkp, _⟩
    rw [ht'] at hlinkp
    by_cases hxb : p.1 ∈ ob.backlinks
    · rw [if_pos hxb] at hlinkp; cases hlinkp
    · rw [if_neg hxb] at hlinkp
      rcases consistent_linkComplete h hx hlinkp.symm with ⟨obt, hobt, hmem⟩
      have htk' : t' ≠ k := by
        intro he
        subst he
        rw [hk] at hobt
        cases hobt
        exact hxb hmem
      rcases hsurv t' obt htk' hobt with ⟨obF, hobF, hblF⟩
      refine ⟨(t', obF), mem_of_lookupA_eq_some hobF, rfl, ?_⟩
      rw [hblF]
      by_cases ht't : t' = t
      · rw [if_pos ht't]
        exact (List.mem_erase_of_ne hxk).mpr hmem
      · rw [if_neg ht't]
        exact hmem

theorem remove_object_once_preserves (st : ATable) (k : Key)
    (h : ConsistentA st) :
    ConsistentA (st.remove_object_once k).1 ∧
    ((st.remove_object_once k).1.objs.map Prod.fst).Sublist
      (st.objs.map Prod.fst) := by
  rcases hk : lookupA st.objs k with _ | ob
  · have he : st.remove_object_once k = (st, []) := by
      unfold ATable.remove_object_once
      rw [hk]
    rw [he]
    exact ⟨h, List.Sublist.refl _⟩
  · rcases hlink : ob.link with _ | t
    · have hobjs : (st.remove_object_once k).1.objs =
          eraseA (ob.backlinks.foldl (fun s o => s.nullify_link o k) st).objs k := by
        simp only [ATable.remove_object_once, hk, hlink]
      refine ⟨consistent_erase_nullify st k ob h hk ?_ _ hobjs, ?_⟩
      · intro t' ht'; rw [hlink] at ht'; cases ht'
      · rw [hobjs]
        have h1 := keys_eraseA_sublist
          (ob.backlinks.foldl (fun s o => s.nullify_link o k) st).objs k
        rwa [nullify_fold_keys] at h1
    · by_cases htk : t = k
      · have hobjs : (st.remove_object_once k).1.objs =
            eraseA (ob.backlinks.foldl (fun s o => s.nullify_link o k) st).objs k := by
          simp only [ATable.remove_object_once, hk, hlink, htk, if_pos rfl, if_true]
        refine ⟨consistent_erase_nullify st k ob h hk ?_ _ hobjs, ?_⟩
        · intro t' ht'; rw [hlink] at ht'; cases ht'; exact htk
        · rw [hobjs]
          have h1 := keys_eraseA_sublist
            (ob.backlinks.foldl (fun s o => s.nullify_link o k) st).objs k
          rwa [nullify_fold_keys] at h1
      · have hobjs : (st.remove_object_once k).1.objs =
            eraseA (updateA
              (ob.backlinks.foldl (fun s o => s.nullify_link o k) st).objs t
              (fun o => { o with backlinks := o.backlinks.erase k })) k := by
          simp only [ATable.remove_object_once, hk, hlink, if_neg htk]
          split <;> rfl
        refine ⟨consistent_erase_nullify_eb st k t ob h hk hlink htk _ hobjs, ?_⟩
        rw [hobjs]
        have h1 := keys_eraseA_sublist (updateA
          (ob.backlinks.foldl (fun s o => s.nullify_link o k) st).objs t
          (fun o => { o with backlinks := o.backlinks.erase k })) k
        rwa [keys_updateA, nullify_fold_keys] at h1

theorem remove_recursive_preserves (fuel : Nat) :
    ∀ (wl : List Key) (st : ATable), ConsistentA st →
      ConsistentA (st.remove_recursive fuel wl) ∧
      ((st.remove_recursive fuel wl).objs.map Prod.fst).Sublist
        (st.objs.map Prod.fst) := by
  induction fuel with
  | zero =>
    intro wl st h
    exact ⟨h, List.Sublist.refl _⟩
  | succ n ih =>
    intro wl st h
    cases wl with
    | nil => exact ⟨h, List.Sublist.refl _⟩
    | cons k rest =>
      have h1 := remove_object_once_preserves st k h
      have h2 := ih (rest ++ (st.remove_object_once k).2)
        (st.remove_object_once k).1 h1.1
      exact ⟨h2.1, h2.2.trans h1.2⟩

theorem update_backlinks_objs (st : ATable) (okey : Key) (oldk newk : Option Key) :
    (st.update_backlinks okey oldk newk).2.2.objs =
      updateOpt (updateOpt st.objs oldk
          (fun x => { x with backlinks := x.backlinks.erase okey})) newk
        (fun x => { x with backlinks := x.backlinks ++ [okey] }) := by
  cases oldk <;> cases newk <;>
    simp only [ATable.update_backlinks, updateOpt] <;>
    first
      | rfl
      | (split <;> rfl)

theorem update_backlinks_strong (st : ATable) (okey : Key) (oldk newk : Option Key) :
    (st.update_backlinks okey oldk newk).2.2.strong = st.strong := by
  cases oldk <;> cases newk <;>
    simp only [ATable.update_backlinks] <;>
    first
      | rfl
      | (split <;> rfl)

theorem update_backlinks_repl (st : ATable) (okey : Key) (oldk newk : Option Key) :
    (st.update_backlinks okey oldk newk).2.2.repl = st.repl := by
  cases oldk <;> cases newk <;>
    simp only [ATable.update_backlinks] <;>
    first
      | rfl
      | (split <;> rfl)

/-- Invariant preservation for the rewiring that `Obj::set<Key>` performs on
a present origin `o` with stored object `ob`: remove one backlink for `o`
from the old target, add one at the new target, and write the new link. -/
theorem consistent_of_rewire (st : ATable) (o : Key) (ob : AObj)
    (tgt : Option Key) (h : ConsistentA st) (ho : lookupA st.objs o = some ob)
    (hvalid : ∀ u, tgt = some u → (lookupA st.objs u).isSome = true)
    (hne : tgt ≠ ob.link) (F : ATable)
    (hFkeys : F.objs.map Prod.fst = st.objs.map Prod.fst)
    (hFlook : ∀ x, lookupA F.objs x = (lookupA st.objs x).map (fun ob0 =>
      { link := if x = o then tgt else ob0.link
        backlinks :=
          (if ob.link = some x then ob0.backlinks.erase o else ob0.backlinks) ++
            (if tgt = some x then [o] else []) })) :
    ConsistentA F := by
  have hFnodup : (F.objs.map Prod.fst).Nodup := by rw [hFkeys]; exact h.1
  -- decomposition of surviving objects
  have hdecomp : ∀ p, p ∈ F.objs → ∃ obx,
      lookupA st.objs p.1 = some obx ∧
      p.2.link = (if p.1 = o then tgt else obx.link) ∧
      p.2.backlinks =
        (if ob.link = some p.1 then obx.backlinks.erase o else obx.backlinks) ++
          (if tgt = some p.1 then [o] else []) := by
    intro p hp
    have hpx := lookupA_eq_some_of_mem hFnodup hp
    rw [hFlook p.1] at hpx
    rcases Option.map_eq_some'.mp hpx with ⟨obx, hx, hval⟩
    exact ⟨obx, hx, by rw [← hval], by rw [← hval]⟩
  have hlinkF : ∀ y oby, lookupA st.objs y = some oby →
      linkOf F.objs y = (if y = o then tgt else oby.link) := by
    intro y oby hy
    unfold linkOf
    rw [hFlook y, hy]
    rfl
  refine ⟨hFnodup, ?_, ?_, ?_⟩
  · -- backlink columns stay duplicate-free
    intro p hp
    rcases hdecomp p hp with ⟨obx, hx, _, hbl⟩
    rw [hbl]
    have hbase : (if ob.link = some p.1 then obx.backlinks.erase o
        else obx.backlinks).Nodup := by
      split
      · exact (consistent_blNodup h hx).erase o
      · exact consistent_blNodup h hx
    by_cases htgt : tgt = some p.1
    · rw [if_pos htgt]
      have honotin : o ∉ obx.backlinks := by
        intro hmem
        have h1 := consistent_blSound h hx hmem
        rcases linkOf_eq_some_iff.mp h1 with ⟨obo, hobo, holink⟩
        rw [ho] at hobo
        cases hobo
        rw [holink] at hne
        exact hne htgt
      have : o ∉ (if ob.link = some p.1 then obx.backlinks.erase o
          else obx.backlinks) := by
        split
        · exact fun hmem => honotin ((List.erase_sublist ..).mem hmem)
        · exact honotin
      simp [List.nodup_append, hbase, this]
    · rw [if_neg htgt, List.append_nil]
      exact hbase
  · -- backlink entries are matched by forward links
    intro p hp o' ho'
    rcases hdecomp p hp with ⟨obx, hx, _, hbl⟩
    rw [hbl, List.mem_append] at ho'
    rcases ho' with hbase | happ
    · -- an old backlink entry
      have hob : o' ∈ obx.backlinks := by
        by_cases hl : ob.link = some p.1
        · rw [if_pos hl] at hbase
          exact (List.erase_sublist ..).mem hbase
        · rwa [if_neg hl] at hbase
      have hlst := consistent_blSound h hx hob
      have hone : o' ≠ o := by
        intro he
        subst he
        rcases linkOf_eq_some_iff.mp hlst with ⟨obo, hobo, holink⟩
        rw [ho] at hobo
        cases hobo
        -- ob.link = some p.1, so the base was erased of o'
        rw [if_pos holink] at hbase
        exact (consistent_blNodup h hx).not_mem_erase hbase
      rcases linkOf_eq_some_iff.mp hlst with ⟨obo, hobo, holink⟩
      rw [hlinkF o' obo hobo, if_neg hone]
      exact holink
    · -- the freshly added entry
      have ho'o : o' = o := by
        by_cases htgt : tgt = some p.1
        · rw [if_pos htgt] at happ; simpa using happ
        · rw [if_neg htgt] at happ; simp at happ
      have htgt : tgt = some p.1 := by
        by_cases htgt : tgt = some p.1
        · exact htgt
        · rw [if_neg htgt] at happ; simp at happ
      subst ho'o
      rw [hlinkF o' ob ho, if_pos rfl]
      exact htgt
  · -- forward links land on present objects carrying the backlink
    intro p hp t' ht'
    rw [Option.mem_toList, Option.mem_def] at ht'
    rcases hdecomp p hp with ⟨obx, hx, hlinkp, _⟩
    rw [ht'] at hlinkp
    have hsurvS : ∀ y oby, lookupA st.objs y = some oby →
        lookupA F.objs y = some
          { link := if y = o then tgt else oby.link
            backlinks :=
              (if ob.link = some y then oby.backlinks.erase o else oby.backlinks) ++
                (if tgt = some y then [o] else []) } := by
      intro y oby hy
      rw [hFlook y, hy]
      rfl
    by_cases hpo : p.1 = o
    · -- the rewritten link: tgt = some t'
      rw [if_pos hpo] at hlinkp
      have hu := hvalid t' hlinkp.symm
      rcases Option.isSome_iff_exists.mp hu with ⟨obt, hobt⟩
      refine ⟨(t', _), mem_of_lookupA_eq_some (hsurvS t' obt hobt), rfl, ?_⟩
      rw [List.mem_append]
      right
      rw [if_pos hlinkp.symm]
      simp [hpo]
    · -- an untouched link
      rw [if_neg hpo] at hlinkp
      rcases consistent_linkComplete h hx hlinkp.symm with ⟨obt, hobt, hmem⟩
      refine ⟨(t', _), mem_of_lookupA_eq_some (hsurvS t' obt hobt), rfl, ?_⟩
      rw [List.mem_append]
      left
      split
      · exact (List.mem_erase_of_ne (by intro he; exact hpo he)).mpr hmem
      · exact hmem

theorem lookupA_updateOpt {α : Type} (objs : List (Key × α)) (k : Option Key)
    (f : α → α) (x : Key) :
    lookupA (updateOpt objs k f) x =
      if k = some x then (lookupA objs x).map f else lookupA objs x := by
  cases k with
  | none => simp [updateOpt]
  | some t =>
    show lookupA (updateA objs t f) x = _
    rw [lookupA_updateA]
    by_cases hxt : x = t
    · subst hxt; simp
    · rw [if_neg hxt,
        if_neg (fun he : some t = some x => hxt (Option.some_inj.mp he).symm)]

theorem keys_updateOpt {α : Type} (objs : List (Key × α)) (k : Option Key)
    (f : α → α) :
    (updateOpt objs k f).map Prod.fst = objs.map Prod.fst := by
  cases k with
  | none => rfl
  | some t => exact keys_updateA objs t f

/-- The full invariant-preservation statement for `Obj::set<Key>`: whatever
state a successful call returns is again consistent. -/
theorem set_key_preserves (st : ATable) (o : Key) (tgt : Option Key)
    (h : ConsistentA st) :
    ∀ {st' : ATable}, st.set_key o tgt = .ok st' → ConsistentA st' := by
  intro st' hok
  unfold ATable.set_key at hok
  cases hvb : st.is_valid tgt with
  | false =>
    rw [hvb] at hok
    simp at hok
  | true =>
    rw [hvb] at hok
    simp only [Bool.not_true, Bool.false_eq_true, if_false] at hok
    rcases ho : lookupA st.objs o with _ | ob
    · simp only [ho] at hok
      cases hok
      exact h
    · simp only [ho] at hok
      by_cases heq : tgt = ob.link
      · rw [if_pos heq] at hok
        cases hok
        exact h
      · rw [if_neg heq] at hok
        injection hok with h1
        subst h1
        have hvalid : ∀ u, tgt = some u → (lookupA st.objs u).isSome = true := by
          intro u hu
          rw [hu] at hvb
          exact hvb
        have hkeys3 : (updateA (st.update_backlinks o ob.link tgt).2.2.objs o
            (fun x => { x with link := tgt })).map Prod.fst =
              st.objs.map Prod.fst := by
          rw [keys_updateA, update_backlinks_objs, keys_updateOpt, keys_updateOpt]
        have hlook3 : ∀ x, lookupA (updateA
            (st.update_backlinks o ob.link tgt).2.2.objs o
            (fun x => { x with link := tgt })) x =
              (lookupA st.objs x).map (fun ob0 =>
                { link := if x = o then tgt else ob0.link
                  backlinks :=
                    (if ob.link = some x then ob0.backlinks.erase o
                      else ob0.backlinks) ++
                      (if tgt = some x then [o] else []) }) := by
          intro x
          rw [lookupA_updateA, update_backlinks_objs]
          by_cases hxo : x = o
          · subst hxo
            rw [if_pos rfl, lookupA_updateOpt, lookupA_updateOpt]
            by_cases h2 : tgt = some x <;> by_cases h3 : ob.link = some x <;>
              simp only [h2, h3, if_pos, if_neg, if_true, if_false] <;>
              rcases lookupA st.objs x with _ | ob0 <;>
              simp
          · rw [if_neg hxo, lookupA_updateOpt, lookupA_updateOpt]
            by_cases h2 : tgt = some x <;> by_cases h3 : ob.link = some x <;>
              simp only [h2, h3, if_pos, if_neg, if_true, if_false] <;>
              rcases lookupA st.objs x with _ | ob0 <;>
              simp [hxo]
        have hst3 : ConsistentA (ATable.mk
            (updateA (st.update_backlinks o ob.link tgt).2.2.objs o
              (fun x => { x with link := tgt }))
            (st.update_backlinks o ob.link tgt).2.2.strong
            ((st.update_backlinks o ob.link tgt).2.2.repl ++
              [Instr.instr_Set o tgt])) := by
          exact consistent_of_rewire st o ob tgt h ho hvalid heq _ hkeys3 hlook3
        split
        · exact (remove_recursive_preserves _ _ _ hst3).1
        · exact hst3

theorem remove_object_once_lookup_self (st : ATable) (k : Key) :
    lookupA (st.remove_object_once k).1.objs k = none := by
  rcases hk : lookupA st.objs k with _ | ob
  · have he : st.remove_object_once k = (st, []) := by
      unfold ATable.remove_object_once
      rw [hk]
    rw [he]
    exact hk
  · obtain ⟨l, hl⟩ : ∃ l, (st.remove_object_once k).1.objs = eraseA l k := by
      unfold ATable.remove_object_once
      simp only [hk]
      exact ⟨_, rfl⟩
    rw [hl, lookupA_eraseA, if_pos rfl]

theorem remove_recursive_not_mem (fuel : Nat) (wl : List Key) (st : ATable)
    (h : ConsistentA st) (x : Key) (hx : lookupA st.objs x = none) :
    lookupA (st.remove_recursive fuel wl).objs x = none := by
  rw [lookupA_eq_none_iff] at hx ⊢
  intro hmem
  exact hx ((remove_recursive_preserves fuel wl st h).2.subset hmem)

theorem remove_recursive_head_removed (n : Nat) (t : Key) (rest : List Key)
    (st : ATable) (h : ConsistentA st) :
    lookupA (st.remove_recursive (n + 1) (t :: rest)).objs t = none := by
  have hstep : st.remove_recursive (n + 1) (t :: rest) =
      (st.remove_object_once t).1.remove_recursive n
        (rest ++ (st.remove_object_once t).2) := rfl
  rw [hstep]
  exact remove_recursive_not_mem n _ _ (remove_object_once_preserves st t h).1 t
    (remove_object_once_lookup_self st t)

/-- The claimed equality of claim C1, derived from the inductive invariant:
each object's backlink count equals the number of forward references to it. -/
theorem consistent_refCount (st : ATable) (h : ConsistentA st) :
    ∀ p ∈ st.objs, refCountA st p.1 = p.2.backlinks.length := by
  intro p hp
  have hbl := h.2.1 p hp
  have hlookup := lookupA_eq_some_of_mem h.1 hp
  have hSnodup : ((st.objs.filter
      (fun q => q.2.link == some p.1)).map Prod.fst).Nodup :=
    ((List.filter_sublist _).map Prod.fst).nodup h.1
  have hmemiff : ∀ o : Key,
      o ∈ (st.objs.filter (fun q => q.2.link == some p.1)).map Prod.fst ↔
        o ∈ p.2.backlinks := by
    intro o
    constructor
    · intro hmem
      rcases List.mem_map.mp hmem with ⟨q, hq, hqo⟩
      rcases List.mem_filter.mp hq with ⟨hqmem, hpred⟩
      have hqlink : q.2.link = some p.1 := by simpa using hpred
      rcases h.2.2.2 q hqmem p.1 (by simp [hqlink]) with ⟨r, hr, hrk, hqr⟩
      have h1 : lookupA st.objs r.1 = some r.2 := lookupA_eq_some_of_mem h.1 hr
      rw [hrk] at h1
      have h2 : p.2 = r.2 := Option.some_inj.mp (hlookup.symm.trans h1)
      rw [← h2] at hqr
      rw [← hqo]
      exact hqr
    · intro hmem
      have hlink := h.2.2.1 p hp o hmem
      rcases linkOf_eq_some_iff.mp hlink with ⟨obo, hobo, holink⟩
      exact List.mem_map.mpr ⟨(o, obo),
        List.mem_filter.mpr ⟨mem_of_lookupA_eq_some hobo, by simp [holink]⟩, rfl⟩
  have hperm := List.perm_of_nodup_nodup_toFinset_eq hSnodup hbl
    (Finset.ext fun o => by
      rw [List.mem_toFinset, List.mem_toFinset, hmemiff])
  have hlen := hperm.length_eq
  rw [List.length_map] at hlen
  exact hlen

theorem count_perm_b {γ : Type} [BEq γ] {l1 l2 : List γ}
    (h : List.Perm l1 l2) (x : γ) : l1.count x = l2.count x :=
  h.countP_eq _

theorem count_set {γ : Type} [BEq γ] [LawfulBEq γ] [DecidableEq γ]
    (l : List γ) (n : Nat) (h : n < l.length) (v x : γ) :
    (l.set n v).count x + (if l[n] = x then 1 else 0) =
      l.count x + (if v = x then 1 else 0) := by
  have hs : l.set n v = l.take n ++ v :: l.drop (n + 1) := by
    rw [List.set_eq_take_append_cons_drop, if_pos h]
  have hl : l = l.take n ++ l[n] :: l.drop (n + 1) := by
    conv_lhs => rw [← List.take_append_drop n l]
    rw [List.drop_eq_getElem_cons h]
  rw [hs]
  conv_rhs => rw [hl]
  rw [List.count_append, List.count_append, List.count_cons, List.count_cons]
  simp only [beq_iff_eq]
  omega

theorem count_eraseIdx {γ : Type} [BEq γ] [LawfulBEq γ] [DecidableEq γ]
    (l : List γ) (n : Nat) (h : n < l.length) (x : γ) :
    (l.eraseIdx n).count x + (if l[n] = x then 1 else 0) = l.count x := by
  have hs : l.eraseIdx n = l.take n ++ l.drop (n + 1) :=
    List.eraseIdx_eq_take_drop_succ ..
  have hl : l = l.take n ++ l[n] :: l.drop (n + 1) := by
    conv_lhs => rw [← List.take_append_drop n l]
    rw [List.drop_eq_getElem_cons h]
  rw [hs]
  conv_rhs => rw [hl]
  rw [List.count_append, List.count_append, List.count_cons]
  simp only [beq_iff_eq]
  omega

theorem count_insertIdx {γ : Type} [BEq γ] [LawfulBEq γ] [DecidableEq γ]
    (l : List γ) (n : Nat) (h : n ≤ l.length) (v x : γ) :
    (l.insertIdx n v).count x = l.count x + (if v = x then 1 else 0) := by
  rw [count_perm_b (List.perm_insertIdx v l h), List.count_cons]
  simp [beq_iff_eq]

theorem count_erase_iter_self (o : Key) (n : Nat) (bl : List Key) :
    (erase_iter o n bl).count o = bl.count o - n := by
  induction n generalizing bl with
  | zero => rfl
  | succ m ih =>
    show (erase_iter o m (bl.erase o)).count o = _
    rw [ih, List.count_erase_self]
    omega

theorem count_erase_iter_ne (o x : Key) (hx : x ≠ o) (n : Nat) (bl : List Key) :
    (erase_iter o n bl).count x = bl.count x := by
  induction n generalizing bl with
  | zero => rfl
  | succ m ih =>
    show (erase_iter o m (bl.erase o)).count x = _
    rw [ih, List.count_erase_of_ne hx]

theorem erase_iter_sublist (o : Key) (n : Nat) (bl : List Key) :
    (erase_iter o n bl).Sublist bl := by
  induction n generalizing bl with
  | zero => exact .refl _
  | succ m ih =>
    exact ((ih (bl.erase o)).trans (List.erase_sublist ..))

/-- Summing per-origin counts of a backlink column whose entries all are
(distinct) origin keys yields its length. -/
theorem sum_count_eq_length (S : List Key) (hS : S.Nodup) (bl : List Key)
    (hsub : ∀ o ∈ bl, o ∈ S) :
    (S.map (fun o => bl.count o)).sum = bl.length := by
  have hsub' : (bl : Multiset Key).toFinset ⊆ S.toFinset := by
    intro o ho1
    rw [Multiset.mem_toFinset] at ho1
    exact List.mem_toFinset.mpr (hsub o (by simpa using ho1))
  have hzero : ∀ o ∈ S.toFinset, o ∉ (bl : Multiset Key).toFinset →
      (bl : Multiset Key).count o = 0 := by
    intro o _ hnot
    rw [Multiset.mem_toFinset] at hnot
    have hno : o ∉ bl := by simpa using hnot
    simpa using List.count_eq_zero.mpr hno
  calc (S.map (fun o => bl.count o)).sum
      = ∑ o ∈ S.toFinset, bl.count o := (List.sum_toFinset _ hS).symm
    _ = ∑ o ∈ S.toFinset, (bl : Multiset Key).count o := by
        refine Finset.sum_congr rfl ?_
        intro o _
        simp
    _ = ∑ o ∈ (bl : Multiset Key).toFinset, (bl : Multiset Key).count o :=
        (Finset.sum_subset hsub' hzero).symm
    _ = Multiset.card (bl : Multiset Key) := Multiset.toFinset_sum_count_eq _
    _ = bl.length := by simp

theorem lookupA_mapval {α β : Type} (objs : List (Key × α)) (g : α → β) (o : Key) :
    lookupA (objs.map (fun p => (p.1, g p.2))) o = (lookupA objs o).map g := by
  induction objs with
  | nil => simp [lookupA]
  | cons p rest ih =>
    have hstep : (p :: rest).map (fun p => (p.1, g p.2)) =
        (p.1, g p.2) :: rest.map (fun p => (p.1, g p.2)) := rfl
    rw [hstep, lookupA_cons, lookupA_cons]
    by_cases hpo : p.1 = o
    · simp [hpo]
    · simp only [if_neg hpo]
      exact ih

theorem keys_mapval {α β : Type} (objs : List (Key × α)) (g : α → β) :
    (objs.map (fun p => (p.1, g p.2))).map Prod.fst = objs.map Prod.fst := by
  rw [List.map_map]
  rfl

theorem removeB_targetObjs (rows : List Key) (st : BState) :
    (st.remove_recursive rows).targetObjs =
      rows.foldl (fun ts r => eraseA ts r) st.targetObjs := by
  induction rows generalizing st with
  | nil => rfl
  | cons r rest ih => exact ih _

theorem removeB_embedded (rows : List Key) (st : BState) :
    (st.remove_recursive rows).embedded = st.embedded := by
  induction rows generalizing st with
  | nil => rfl
  | cons r rest ih => exact ih _

theorem foldl_eraseA_sublist (rows : List Key) (ts : List (Key × List Key)) :
    (rows.foldl (fun ts r => eraseA ts r) ts).Sublist ts := by
  induction rows generalizing ts with
  | nil => exact .refl _
  | cons r rest ih => exact (ih _).trans (List.filter_sublist _)

theorem foldl_eraseA_lookup (rows : List Key) (ts : List (Key × List Key))
    (x : Key) :
    lookupA (rows.foldl (fun ts r => eraseA ts r) ts) x =
      if x ∈ rows then none else lookupA ts x := by
  induction rows generalizing ts with
  | nil => simp
  | cons r rest ih =>
    rw [List.foldl_cons, ih, lookupA_eraseA]
    by_cases hxr : x ∈ rest
    · simp [hxr]
    · by_cases hx : x = r
      · simp [hx, hxr]
      · simp [hx, hxr]

theorem removeB_target_lookup (rows : List Key) (st : BState) (x : Key) :
    lookupA (st.remove_recursive rows).targetObjs x =
      if x ∈ rows then none else lookupA st.targetObjs x := by
  rw [removeB_targetObjs]
  exact foldl_eraseA_lookup rows st.targetObjs x

theorem removeB_origin_lookup (rows : List Key) (st : BState) (o : Key) :
    lookupA (st.remove_recursive rows).originObjs o =
      (lookupA st.originObjs o).map (fun l =>
        l.filter (fun e => rows.all (fun r => !(e == some r)))) := by
  induction rows generalizing st with
  | nil =>
    show lookupA st.originObjs o = _
    rcases lookupA st.originObjs o with _ | l
    · rfl
    · simp
  | cons r rest ih =>
    have hstep : st.remove_recursive (r :: rest) =
        (BState.mk
          (st.originObjs.map (fun p => (p.1, p.2.filter (fun e => !(e == some r)))))
          (eraseA st.targetObjs r) st.embedded).remove_recursive rest := rfl
    rw [hstep, ih]
    show Option.map _ (lookupA (st.originObjs.map
      (fun p => (p.1, p.2.filter (fun e => !(e == some r))))) o) = _
    rw [lookupA_mapval, Option.map_map]
    congr 1
    funext l
    show (l.filter (fun e => !(e == some r))).filter _ = _
    rw [List.filter_filter]
    refine List.filter_congr ?_
    intro e _
    simp [List.all_cons, Bool.and_comm]

theorem removeB_keys_origin (rows : List Key) (st : BState) :
    (st.remove_recursive rows).originObjs.map Prod.fst =
      st.originObjs.map Prod.fst := by
  induction rows generalizing st with
  | nil => rfl
  | cons r rest ih =>
    have hstep : st.remove_recursive (r :: rest) =
        (BState.mk
          (st.originObjs.map (fun p => (p.1, p.2.filter (fun e => !(e == some r)))))
          (eraseA st.targetObjs r) st.embedded).remove_recursive rest := rfl
    rw [hstep, ih]
    exact keys_mapval _ _

theorem removeB_preserves (rows : List Key) (st : BState) (h : ConsistentB st) :
    ConsistentB (st.remove_recursive rows) := by
  obtain ⟨hO, hT, h3, h4, h5⟩ := h
  have hOkeys := removeB_keys_origin rows st
  have hTsub : ((st.remove_recursive rows).targetObjs.map Prod.fst).Sublist
      (st.targetObjs.map Prod.fst) := by
    rw [removeB_targetObjs]
    exact (foldl_eraseA_sublist rows st.targetObjs).map Prod.fst
  have hTnodup := hTsub.nodup hT
  have hOnodup : ((st.remove_recursive rows).originObjs.map Prod.fst).Nodup := by
    rw [hOkeys]; exact hO
  have hTmem : ∀ q ∈ (st.remove_recursive rows).targetObjs,
      q ∈ st.targetObjs ∧ q.1 ∉ rows := by
    intro q hq
    have hqmem : q ∈ st.targetObjs := by
      rw [removeB_targetObjs] at hq
      exact (foldl_eraseA_sublist rows st.targetObjs).subset hq
    refine ⟨hqmem, ?_⟩
    intro hrow
    have hl := lookupA_eq_some_of_mem hTnodup hq
    rw [removeB_target_lookup, if_pos hrow] at hl
    cases hl
  have hOdec : ∀ p ∈ (st.remove_recursive rows).originObjs, ∃ l0,
      (p.1, l0) ∈ st.originObjs ∧
      p.2 = l0.filter (fun e => rows.all (fun r => !(e == some r))) := by
    intro p hp
    have hpx := lookupA_eq_some_of_mem hOnodup hp
    rw [removeB_origin_lookup] at hpx
    rcases Option.map_eq_some'.mp hpx with ⟨l0, hl0, hval⟩
    exact ⟨l0, mem_of_lookupA_eq_some hl0, hval.symm⟩
  refine ⟨hOnodup, hTnodup, ?_, ?_, ?_⟩
  · intro q hq p hp
    obtain ⟨hqmem, hqrow⟩ := hTmem q hq
    obtain ⟨l0, hl0mem, hval⟩ := hOdec p hp
    have hpred : (rows.all (fun r => !((some q.1 : Option Key) == some r))) = true := by
      simp only [List.all_eq_true]
      intro r hr
      simp only [Bool.not_eq_true', beq_eq_false_iff_ne, ne_eq, Option.some_inj]
      intro hqr
      exact hqrow (hqr ▸ hr)
    rw [hval, List.count_filter (p := fun e => rows.all (fun r => !(e == some r))) hpred]
    exact h3 q hqmem (p.1, l0) hl0mem
  · intro q hq o ho
    obtain ⟨hqmem, _⟩ := hTmem q hq
    rw [hOkeys]
    exact h4 q hqmem o ho
  · intro p hp e he t ht
    obtain ⟨l0, hl0mem, hval⟩ := hOdec p hp
    rw [hval] at he
    have hmem0 : e ∈ l0 := List.mem_of_mem_filter he
    have hpred := List.of_mem_filter he
    rw [Option.mem_toList, Option.mem_def] at ht
    have htrow : t ∉ rows := by
      intro hr
      rw [ht, List.all_eq_true] at hpred
      have hcontra := hpred t hr
      simp at hcontra
    have hst := h5 (p.1, l0) hl0mem e hmem0 t (by rw [ht]; simp)
    have hne : lookupA (st.remove_recursive rows).targetObjs t ≠ none := by
      rw [removeB_target_lookup, if_neg htrow]
      intro hnone
      exact (lookupA_eq_none_iff.mp hnone) hst
    rcases hopt : lookupA (st.remove_recursive rows).targetObjs t with _ | bl
    · exact absurd hopt hne
    · exact List.mem_map_of_mem Prod.fst (mem_of_lookupA_eq_some hopt)

theorem set_backlink_targets (st : BState) (okey : Key) (target : Option Key) :
    (st.set_backlink okey target).targetObjs =
      updateOpt st.targetObjs target (fun bl => bl ++ [okey]) := by
  cases target <;> rfl

theorem set_backlink_origins (st : BState) (okey : Key) (target : Option Key) :
    (st.set_backlink okey target).originObjs = st.originObjs := by
  cases target <;> rfl

theorem set_backlink_embedded (st : BState) (okey : Key) (target : Option Key) :
    (st.set_backlink okey target).embedded = st.embedded := by
  cases target <;> rfl

theorem remove_backlink_state (st : BState) (okey : Key) (oldk : Option Key) :
    (st.remove_backlink okey oldk).2.2 =
      { st with targetObjs :=
          updateOpt st.targetObjs oldk (fun bl => bl.erase okey) } := by
  cases oldk with
  | none => rfl
  | some t =>
    simp only [BState.remove_backlink]
    split <;> rfl

theorem remove_backlink_rows (st : BState) (okey : Key) (oldk : Option Key) :
    (st.remove_backlink okey oldk).2.1 = [] ∨
      ∃ t, oldk = some t ∧ (st.remove_backlink okey oldk).2.1 = [t] := by
  cases oldk with
  | none => exact Or.inl rfl
  | some t =>
    simp only [BState.remove_backlink]
    split
    · exact Or.inr ⟨t, rfl, rfl⟩
    · exact Or.inl rfl

/-- Decomposition of the rows of an updated table through its lookup. -/
theorem decomp_updateOpt {α : Type} {objs : List (Key × α)} {k : Option Key}
    {f : α → α} (hn : (objs.map Prod.fst).Nodup) {p : Key × α}
    (hp : p ∈ updateOpt objs k f) :
    ∃ v, (p.1, v) ∈ objs ∧ p.2 = (if k = some p.1 then f v else v) := by
  have hnodup : ((updateOpt objs k f).map Prod.fst).Nodup := by
    rw [keys_updateOpt]; exact hn
  have hpx := lookupA_eq_some_of_mem hnodup hp
  rw [lookupA_updateOpt] at hpx
  by_cases hk : k = some p.1
  · rw [if_pos hk] at hpx
    rcases Option.map_eq_some'.mp hpx with ⟨v, hv, hval⟩
    exact ⟨v, mem_of_lookupA_eq_some hv, by rw [if_pos hk, hval]⟩
  · rw [if_neg hk] at hpx
    exact ⟨p.2, mem_of_lookupA_eq_some hpx, by rw [if_neg hk]⟩

theorem decomp_updateA {α : Type} {objs : List (Key × α)} {k : Key}
    {f : α → α} (hn : (objs.map Prod.fst).Nodup) {p : Key × α}
    (hp : p ∈ updateA objs k f) :
    ∃ v, (p.1, v) ∈ objs ∧ p.2 = (if p.1 = k then f v else v) := by
  have hp' : p ∈ updateOpt objs (some k) f := hp
  rcases decomp_updateOpt hn hp' with ⟨v, hv, hval⟩
  refine ⟨v, hv, ?_⟩
  rw [hval]
  by_cases he : p.1 = k
  · simp [he]
  · rw [if_neg he, if_neg (fun hc => he (Option.some_inj.mp hc).symm)]

theorem do_insert_preserves (st : BState) (okey : Key) (ndx : Nat)
    (target : Option Key) (h : ConsistentB st)
    (hok : (lookupA st.originObjs okey).isSome = true)
    (hndx : ndx ≤ (st.get_list okey).length)
    (hval : ∀ u, target = some u → (lookupA st.targetObjs u).isSome = true) :
    ConsistentB (st.do_insert okey ndx target) := by
  obtain ⟨hO, hT, h3, h4, h5⟩ := h
  rcases Option.isSome_iff_exists.mp hok with ⟨l0, hl0⟩
  have hlen : ndx ≤ l0.length := by
    unfold BState.get_list at hndx
    rw [hl0] at hndx
    exact hndx
  have horig : (st.do_insert okey ndx target).originObjs =
      updateA st.originObjs okey (fun l => l.insertIdx ndx target) := by
    show updateA (st.set_backlink okey target).originObjs okey _ = _
    rw [set_backlink_origins]
  have htarg : (st.do_insert okey ndx target).targetObjs =
      updateOpt st.targetObjs target (fun bl => bl ++ [okey]) := by
    show (st.set_backlink okey target).targetObjs = _
    rw [set_backlink_targets]
  refine ⟨?_, ?_, ?_, ?_, ?_⟩
  · rw [horig, keys_updateA]; exact hO
  · rw [htarg, keys_updateOpt]; exact hT
  · intro q hq p hp
    rw [htarg] at hq
    rw [horig] at hp
    rcases decomp_updateOpt hT hq with ⟨bl, hblmem, hblval⟩
    rcases decomp_updateA hO hp with ⟨l1, hl1mem, hl1val⟩
    have hc : bl.count p.1 = l1.count (some q.1) :=
      h3 (q.1, bl) hblmem (p.1, l1) hl1mem
    have hins : p.1 = okey → l1 = l0 := by
      intro he
      have := lookupA_eq_some_of_mem hO hl1mem
      rw [he, hl0] at this
      exact (Option.some_inj.mp this).symm
    rw [hblval, hl1val]
    by_cases hpo : p.1 = okey
    · have hl1 : l1 = l0 := hins hpo
      rw [hl1] at hc ⊢
      rw [if_pos hpo, count_insertIdx l0 ndx hlen]
      by_cases htq : target = some q.1
      · rw [if_pos htq, if_pos htq, List.count_append]
        have h1 : List.count p.1 [okey] = 1 := by
          rw [hpo]; simp
        rw [h1]
        omega
      · rw [if_neg htq, if_neg htq]
        omega
    · rw [if_neg hpo]
      by_cases htq : target = some q.1
      · rw [if_pos htq, List.count_append]
        have : List.count p.1 [okey] = 0 := by
          simp [hpo]
        rw [this]
        omega
      · rw [if_neg htq]
        exact hc
  · intro q hq o ho
    rw [htarg] at hq
    rw [horig, keys_updateA]
    rcases decomp_updateOpt hT hq with ⟨bl, hblmem, hblval⟩
    rw [hblval] at ho
    by_cases htq : target = some q.1
    · rw [if_pos htq, List.mem_append] at ho
      rcases ho with ho | ho
      · exact h4 (q.1, bl) hblmem o ho
      · have : o = okey := by simpa using ho
        subst this
        rcases Option.isSome_iff_exists.mp hok with ⟨l2, hl2⟩
        exact List.mem_map_of_mem Prod.fst (mem_of_lookupA_eq_some hl2)
    · rw [if_neg htq] at ho
      exact h4 (q.1, bl) hblmem o ho
  · intro p hp e he t ht
    rw [horig] at hp
    rw [htarg, keys_updateOpt]
    rcases decomp_updateA hO hp with ⟨l1, hl1mem, hl1val⟩
    rw [hl1val] at he
    rw [Option.mem_toList, Option.mem_def] at ht
    by_cases hpo : p.1 = okey
    · rw [if_pos hpo] at he
      have hl1eq : l1 = l0 := by
        have := lookupA_eq_some_of_mem hO hl1mem
        rw [hpo, hl0] at this
        exact (Option.some_inj.mp this).symm
      rw [hl1eq] at he
      have hmm := (List.perm_insertIdx target l0 hlen).mem_iff.mp he
      rcases List.mem_cons.mp hmm with rfl | hmem
      · rcases hval t (by rw [ht]) with hu
        rcases Option.isSome_iff_exists.mp hu with ⟨bl, hbl⟩
        exact List.mem_map_of_mem Prod.fst (mem_of_lookupA_eq_some hbl)
      · rw [← hl1eq] at hmem
        exact h5 (p.1, l1) hl1mem e hmem t (by rw [ht]; simp)
    · rw [if_neg hpo] at he
      exact h5 (p.1, l1) hl1mem e he t (by rw [ht]; simp)

theorem do_set_preserves (st : BState) (okey : Key) (ndx : Nat)
    (target : Option Key) (l0 : List (Option Key)) (h : ConsistentB st)
    (hl0 : lookupA st.originObjs okey = some l0)
    (hndx : ndx < l0.length)
    (hval : ∀ u, target = some u → (lookupA st.targetObjs u).isSome = true) :
    ConsistentB (st.do_set okey ndx target) := by
  obtain ⟨hO, hT, h3, h4, h5⟩ := h
  have holdk : (st.get_list okey).getD ndx none = l0[ndx] := by
    unfold BState.get_list
    rw [hl0]
    simp [List.getD_eq_getElem?_getD, List.getElem?_eq_getElem hndx]
  simp only [BState.do_set]
  rw [holdk]
  set st3 : BState :=
    { (st.remove_backlink okey l0[ndx]).2.2.set_backlink okey target with
      originObjs := updateA
        ((st.remove_backlink okey l0[ndx]).2.2.set_backlink okey target).originObjs
        okey (fun l => l.set ndx target) } with hst3def
  have horig3 : st3.originObjs =
      updateA st.originObjs okey (fun l => l.set ndx target) := by
    rw [hst3def]
    show updateA
      ((st.remove_backlink okey l0[ndx]).2.2.set_backlink okey target).originObjs
      okey (fun l => l.set ndx target) =
      updateA st.originObjs okey (fun l => l.set ndx target)
    rw [set_backlink_origins, remove_backlink_state]
  have htarg3 : st3.targetObjs =
      updateOpt (updateOpt st.targetObjs (l0[ndx]) (fun bl => bl.erase okey))
        target (fun bl => bl ++ [okey]) := by
    rw [hst3def]
    show ((st.remove_backlink okey l0[ndx]).2.2.set_backlink okey target).targetObjs =
      updateOpt (updateOpt st.targetObjs (l0[ndx]) (fun bl => bl.erase okey))
        target (fun bl => bl ++ [okey])
    rw [set_backlink_targets, remove_backlink_state]
  have hT1 : ((updateOpt st.targetObjs (l0[ndx])
      (fun bl => bl.erase okey)).map Prod.fst).Nodup := by
    rw [keys_updateOpt]; exact hT
  have hst3 : ConsistentB st3 := by
    refine ⟨?_, ?_, ?_, ?_, ?_⟩
    · rw [horig3, keys_updateA]; exact hO
    · rw [htarg3, keys_updateOpt, keys_updateOpt]; exact hT
    · intro q hq p hp
      rw [htarg3] at hq
      rw [horig3] at hp
      rcases decomp_updateOpt hT1 hq with ⟨bl1, hbl1mem0, hbl1val⟩
      have hbl1mem : (q.1, bl1) ∈
          updateOpt st.targetObjs (l0[ndx]) (fun bl => bl.erase okey) := hbl1mem0
      rcases decomp_updateOpt hT hbl1mem with ⟨bl, hblmem0, hblval0⟩
      have hblmem : (q.1, bl) ∈ st.targetObjs := hblmem0
      have hblval : bl1 =
          (if (l0[ndx] : Option Key) = some q.1 then bl.erase okey else bl) :=
        hblval0
      rcases decomp_updateA hO hp with ⟨l1, hl1mem, hl1val⟩
      have hc : bl.count p.1 = l1.count (some q.1) :=
        h3 (q.1, bl) hblmem (p.1, l1) hl1mem
      rw [hbl1val, hblval, hl1val]
      by_cases hpo : p.1 = okey
      · have hl1e : l1 = l0 := by
          have := lookupA_eq_some_of_mem hO hl1mem
          rw [hpo, hl0] at this
          exact (Option.some_inj.mp this).symm
        rw [hl1e] at hc
        rw [hl1e, if_pos hpo, hpo]
        rw [hpo] at hc
        have hcs := count_set l0 ndx hndx target (some q.1)
        by_cases hoq : (l0[ndx] : Option Key) = some q.1
        · rw [if_pos hoq] at hcs ⊢
          have hmem : (some q.1 : Option Key) ∈ l0 := hoq ▸ List.getElem_mem hndx
          have hge : 1 ≤ l0.count (some q.1) :=
            List.count_pos_iff.mpr hmem
          have hec : (bl.erase okey).count okey = bl.count okey - 1 :=
            List.count_erase_self ..
          by_cases htq : target = some q.1
          · rw [if_pos htq] at hcs ⊢
            rw [List.count_append, hec]
            have h1 : List.count okey [okey] = 1 := by simp
            rw [h1]
            omega
          · rw [if_neg htq] at hcs ⊢
            rw [hec]
            omega
        · rw [if_neg hoq] at hcs ⊢
          by_cases htq : target = some q.1
          · rw [if_pos htq] at hcs ⊢
            rw [List.count_append]
            have h1 : List.count okey [okey] = 1 := by simp
            rw [h1]
            omega
          · rw [if_neg htq] at hcs ⊢
            omega
      · rw [if_neg hpo]
        have hys : ∀ bl2 : List Key,
            List.count p.1 (if target = some q.1 then bl2 ++ [okey] else bl2) =
              List.count p.1 bl2 := by
          intro bl2
          split
          · rw [List.count_append]
            have : List.count p.1 [okey] = 0 := by simp [hpo]
            omega
          · rfl
        rw [hys]
        by_cases hoq : (l0[ndx] : Option Key) = some q.1
        · rw [if_pos hoq, List.count_erase_of_ne hpo]
          exact hc
        · rw [if_neg hoq]
          exact hc
    · intro q hq o ho
      rw [htarg3] at hq
      rw [horig3, keys_updateA]
      rcases decomp_updateOpt hT1 hq with ⟨bl1, hbl1mem0, hbl1val⟩
      have hbl1mem : (q.1, bl1) ∈
          updateOpt st.targetObjs (l0[ndx]) (fun bl => bl.erase okey) := hbl1mem0
      rcases decomp_updateOpt hT hbl1mem with ⟨bl, hblmem0, hblval0⟩
      have hblmem : (q.1, bl) ∈ st.targetObjs := hblmem0
      have hblval : bl1 =
          (if (l0[ndx] : Option Key) = some q.1 then bl.erase okey else bl) :=
        hblval0
      have hblsub : o ∈ bl1 → o ∈ bl := by
        intro hob
        rw [hblval] at hob
        by_cases hoq : (l0[ndx] : Option Key) = some q.1
        · rw [if_pos hoq] at hob
          exact List.mem_of_mem_erase hob
        · rw [if_neg hoq] at hob
          exact hob
      rw [hbl1val] at ho
      by_cases htq : target = some q.1
      · rw [if_pos htq, List.mem_append] at ho
        rcases ho with ho | ho
        · exact h4 (q.1, bl) hblmem o (hblsub ho)
        · have hoo : o = okey := by simpa using ho
          rw [hoo]
          exact List.mem_map_of_mem Prod.fst (mem_of_lookupA_eq_some hl0)
      · rw [if_neg htq] at ho
        exact h4 (q.1, bl) hblmem o (hblsub ho)
    · intro p hp e he t ht
      rw [horig3] at hp
      rw [htarg3, keys_updateOpt, keys_updateOpt]
      rcases decomp_updateA hO hp with ⟨l1, hl1mem, hl1val⟩
      rw [hl1val] at he
      rw [Option.mem_toList, Option.mem_def] at ht
      by_cases hpo : p.1 = okey
      · rw [if_pos hpo] at he
        rcases List.mem_or_eq_of_mem_set he with hmem | heq
        · exact h5 (p.1, l1) hl1mem e hmem t (by rw [ht]; simp)
        · rw [heq] at ht
          rcases Option.isSome_iff_exists.mp (hval t ht) with ⟨bl, hbl⟩
          exact List.mem_map_of_mem Prod.fst (mem_of_lookupA_eq_some hbl)
      · rw [if_neg hpo] at he
        exact h5 (p.1, l1) hl1mem e he t (by rw [ht]; simp)
  split
  · exact removeB_preserves _ _ hst3
  · exact hst3

theorem do_remove_preserves (st : BState) (okey : Key) (ndx : Nat)
    (l0 : List (Option Key)) (h : ConsistentB st)
    (hl0 : lookupA st.originObjs okey = some l0)
    (hndx : ndx < l0.length) :
    ConsistentB (st.do_remove okey ndx) := by
  obtain ⟨hO, hT, h3, h4, h5⟩ := h
  have holdk : (st.get_list okey).getD ndx none = l0[ndx] := by
    unfold BState.get_list
    rw [hl0]
    simp [List.getD_eq_getElem?_getD, List.getElem?_eq_getElem hndx]
  simp only [BState.do_remove]
  rw [holdk]
  set st2 : BState :=
    { (st.remove_backlink okey l0[ndx]).2.2 with
      originObjs := updateA
        (st.remove_backlink okey l0[ndx]).2.2.originObjs
        okey (fun l => l.eraseIdx ndx) } with hst2def
  have horig2 : st2.originObjs =
      updateA st.originObjs okey (fun l => l.eraseIdx ndx) := by
    rw [hst2def]
    show updateA (st.remove_backlink okey l0[ndx]).2.2.originObjs
      okey (fun l => l.eraseIdx ndx) =
      updateA st.originObjs okey (fun l => l.eraseIdx ndx)
    rw [remove_backlink_state]
  have htarg2 : st2.targetObjs =
      updateOpt st.targetObjs (l0[ndx]) (fun bl => bl.erase okey) := by
    rw [hst2def]
    show (st.remove_backlink okey l0[ndx]).2.2.targetObjs =
      updateOpt st.targetObjs (l0[ndx]) (fun bl => bl.erase okey)
    rw [remove_backlink_state]
  have hst2 : ConsistentB st2 := by
    refine ⟨?_, ?_, ?_, ?_, ?_⟩
    · rw [horig2, keys_updateA]; exact hO
    · rw [htarg2, keys_updateOpt]; exact hT
    · intro q hq p hp
      rw [htarg2] at hq
      rw [horig2] at hp
      rcases decomp_updateOpt hT hq with ⟨bl, hblmem, hblval⟩
      rcases decomp_updateA hO hp with ⟨l1, hl1mem, hl1val⟩
      have hc : bl.count p.1 = l1.count (some q.1) :=
        h3 (q.1, bl) hblmem (p.1, l1) hl1mem
      rw [hblval, hl1val]
      by_cases hpo : p.1 = okey
      · have hl1e : l1 = l0 := by
          have := lookupA_eq_some_of_mem hO hl1mem
          rw [hpo, hl0] at this
          exact (Option.some_inj.mp this).symm
        rw [hl1e] at hc
        rw [hl1e, if_pos hpo, hpo]
        rw [hpo] at hc
        have hcs := count_eraseIdx l0 ndx hndx (some q.1)
        by_cases hoq : (l0[ndx] : Option Key) = some q.1
        · rw [if_pos hoq] at hcs ⊢
          have hmem : (some q.1 : Option Key) ∈ l0 := hoq ▸ List.getElem_mem hndx
          have hge : 1 ≤ l0.count (some q.1) :=
            List.count_pos_iff.mpr hmem
          have hec : (bl.erase okey).count okey = bl.count okey - 1 :=
            List.count_erase_self ..
          rw [hec]
          omega
        · rw [if_neg hoq] at hcs ⊢
          omega
      · rw [if_neg hpo]
        by_cases hoq : (l0[ndx] : Option Key) = some q.1
        · rw [if_pos hoq, List.count_erase_of_ne hpo]
          exact hc
        · rw [if_neg hoq]
          exact hc
    · intro q hq o ho
      rw [htarg2] at hq
      rw [horig2, keys_updateA]
      rcases decomp_updateOpt hT hq with ⟨bl, hblmem, hblval⟩
      rw [hblval] at ho
      by_cases hoq : (l0[ndx] : Option Key) = some q.1
      · rw [if_pos hoq] at ho
        exact h4 (q.1, bl) hblmem o (List.mem_of_mem_erase ho)
      · rw [if_neg hoq] at ho
        exact h4 (q.1, bl) hblmem o ho
    · intro p hp e he t ht
      rw [horig2] at hp
      rw [htarg2, keys_updateOpt]
      rcases decomp_updateA hO hp with ⟨l1, hl1mem, hl1val⟩
      rw [hl1val] at he
      by_cases hpo : p.1 = okey
      · rw [if_pos hpo] at he
        exact h5 (p.1, l1) hl1mem e ((l1.eraseIdx_sublist ndx).mem he) t ht
      · rw [if_neg hpo] at he
        exact h5 (p.1, l1) hl1mem e he t ht
  split
  · exact removeB_preserves _ _ hst2
  · exact hst2

theorem remove_backlink_flag_false (st : BState) (okey : Key) (oldk : Option Key)
    (hemb : st.embedded = false) :
    (st.remove_backlink okey oldk).1 = false := by
  cases oldk with
  | none => rfl
  | some t =>
    simp [BState.remove_backlink, hemb]

theorem do_set_origin_nc (st : BState) (okey : Key) (ndx : Nat)
    (target : Option Key) (hemb : st.embedded = false) :
    (st.do_set okey ndx target).originObjs =
      updateA st.originObjs okey (fun l => l.set ndx target) := by
  have hfl := remove_backlink_flag_false st okey
    ((st.get_list okey).getD ndx none) hemb
  simp only [BState.do_set, hfl, Bool.false_eq_true, if_false]
  show updateA
      ((st.remove_backlink okey ((st.get_list okey).getD ndx none)).2.2.set_backlink
        okey target).originObjs okey (fun l => l.set ndx target) =
    updateA st.originObjs okey (fun l => l.set ndx target)
  rw [set_backlink_origins, remove_backlink_state]

theorem do_set_target_nc (st : BState) (okey : Key) (ndx : Nat)
    (target : Option Key) (hemb : st.embedded = false) :
    (st.do_set okey ndx target).targetObjs =
      updateOpt (updateOpt st.targetObjs ((st.get_list okey).getD ndx none)
        (fun bl => bl.erase okey)) target (fun bl => bl ++ [okey]) := by
  have hfl := remove_backlink_flag_false st okey
    ((st.get_list okey).getD ndx none) hemb
  simp only [BState.do_set, hfl, Bool.false_eq_true, if_false]
  show ((st.remove_backlink okey ((st.get_list okey).getD ndx none)).2.2.set_backlink
      okey target).targetObjs =
    updateOpt (updateOpt st.targetObjs ((st.get_list okey).getD ndx none)
      (fun bl => bl.erase okey)) target (fun bl => bl ++ [okey])
  rw [set_backlink_targets, remove_backlink_state]

theorem do_set_embedded_nc (st : BState) (okey : Key) (ndx : Nat)
    (target : Option Key) (hemb : st.embedded = false) :
    (st.do_set okey ndx target).embedded = false := by
  have hfl := remove_backlink_flag_false st okey
    ((st.get_list okey).getD ndx none) hemb
  simp only [BState.do_set, hfl, Bool.false_eq_true, if_false]
  show ((st.remove_backlink okey ((st.get_list okey).getD ndx none)).2.2.set_backlink
      okey target).embedded = false
  rw [set_backlink_embedded, remove_backlink_state]
  exact hemb

theorem eraseIdx_none_preserves (st : BState) (okey : Key) (ndx : Nat)
    (l0 : List (Option Key)) (h : ConsistentB st)
    (hl0 : lookupA st.originObjs okey = some l0)
    (hndx : ndx < l0.length) (hnone : l0[ndx] = none) :
    ConsistentB { st with
      originObjs := updateA st.originObjs okey (fun l => l.eraseIdx ndx) } := by
  obtain ⟨hO, hT, h3, h4, h5⟩ := h
  refine ⟨?_, ?_, ?_, ?_, ?_⟩
  · show ((updateA st.originObjs okey (fun l => l.eraseIdx ndx)).map Prod.fst).Nodup
    rw [keys_updateA]; exact hO
  · exact hT
  · intro q hq p hp
    have hq' : q ∈ st.targetObjs := hq
    have hp' : p ∈ updateA st.originObjs okey (fun l => l.eraseIdx ndx) := hp
    rcases decomp_updateA hO hp' with ⟨l1, hl1mem, hl1val⟩
    have hc : q.2.count p.1 = l1.count (some q.1) := h3 q hq' (p.1, l1) hl1mem
    show q.2.count p.1 = p.2.count (some q.1)
    rw [hl1val]
    by_cases hpo : p.1 = okey
    · have hl1e : l1 = l0 := by
        have := lookupA_eq_some_of_mem hO hl1mem
        rw [hpo, hl0] at this
        exact (Option.some_inj.mp this).symm
      rw [hl1e] at hc
      rw [hl1e, if_pos hpo]
      have hcs := count_eraseIdx l0 ndx hndx (some q.1)
      have hne : ¬((l0[ndx] : Option Key) = some q.1) := by
        rw [hnone]; exact fun hc2 => Option.noConfusion hc2
      rw [if_neg hne] at hcs
      omega
    · rw [if_neg hpo]
      exact hc
  · intro q hq o ho
    show o ∈ (updateA st.originObjs okey (fun l => l.eraseIdx ndx)).map Prod.fst
    rw [keys_updateA]
    exact h4 q hq o ho
  · intro p hp e he t ht
    have hp' : p ∈ updateA st.originObjs okey (fun l => l.eraseIdx ndx) := hp
    rcases decomp_updateA hO hp' with ⟨l1, hl1mem, hl1val⟩
    rw [hl1val] at he
    by_cases hpo : p.1 = okey
    · rw [if_pos hpo] at he
      exact h5 (p.1, l1) hl1mem e ((l1.eraseIdx_sublist ndx).mem he) t ht
    · rw [if_neg hpo] at he
      exact h5 (p.1, l1) hl1mem e he t ht

theorem clear_loop_preserves (n : Nat) (st : BState) (okey : Key)
    (l0 : List (Option Key)) (h : ConsistentB st) (hemb : st.embedded = false)
    (hl0 : lookupA st.originObjs okey = some l0) (hlen : l0.length = n) :
    ConsistentB (st.clear_loop okey n) := by
  induction n generalizing st l0 with
  | zero => exact h
  | succ m ih =>
    show ConsistentB
      ((BState.clear_loop
        { st.do_set okey m none with
          originObjs := updateA (st.do_set okey m none).originObjs okey
            (fun l => l.eraseIdx m) }) okey m)
    have hndx : m < l0.length := by omega
    have hst1 : ConsistentB (st.do_set okey m none) :=
      do_set_preserves st okey m none l0 h hl0 hndx
        (fun u hu => Option.noConfusion hu)
    have hl1 : lookupA (st.do_set okey m none).originObjs okey =
        some (l0.set m none) := by
      rw [do_set_origin_nc st okey m none hemb, lookupA_updateA, if_pos rfl, hl0]
      rfl
    have hlen1 : (l0.set m none).length = m + 1 := by
      rw [List.length_set]; exact hlen
    have hm2 : m < (l0.set m none).length := by
      rw [List.length_set]; omega
    have hnone1 : (l0.set m none)[m] = none := by
      rw [List.getElem_set]
      simp
    have hst2 : ConsistentB
        { st.do_set okey m none with
          originObjs := updateA (st.do_set okey m none).originObjs okey
            (fun l => l.eraseIdx m) } :=
      eraseIdx_none_preserves (st.do_set okey m none) okey m (l0.set m none)
        hst1 hl1 hm2 hnone1
    have hemb2 :
        ({ st.do_set okey m none with
          originObjs := updateA (st.do_set okey m none).originObjs okey
            (fun l => l.eraseIdx m) } : BState).embedded = false :=
      do_set_embedded_nc st okey m none hemb
    have hl2 : lookupA
        ({ st.do_set okey m none with
          originObjs := updateA (st.do_set okey m none).originObjs okey
            (fun l => l.eraseIdx m) } : BState).originObjs okey =
        some ((l0.set m none).eraseIdx m) := by
      show lookupA (updateA (st.do_set okey m none).originObjs okey
        (fun l => l.eraseIdx m)) okey = _
      rw [lookupA_updateA, if_pos rfl, hl1]
      rfl
    exact ih _ _ hst2 hemb2 hl2
      (by rw [List.length_eraseIdx_of_lt (by omega)]; omega)

theorem clear_fold_origins (okey : Key) (l : List (Option Key)) (st : BState) :
    (l.foldl (fun s e =>
      match e with
      | some t =>
        { s with targetObjs := updateA s.targetObjs t (fun bl => bl.erase okey) }
      | none => s) st).originObjs = st.originObjs := by
  induction l generalizing st with
  | nil => rfl
  | cons e rest ih =>
    rw [List.foldl_cons]
    cases e with
    | none => exact ih st
    | some t => exact ih _

theorem clear_fold_embedded (okey : Key) (l : List (Option Key)) (st : BState) :
    (l.foldl (fun s e =>
      match e with
      | some t =>
        { s with targetObjs := updateA s.targetObjs t (fun bl => bl.erase okey) }
      | none => s) st).embedded = st.embedded := by
  induction l generalizing st with
  | nil => rfl
  | cons e rest ih =>
    rw [List.foldl_cons]
    cases e with
    | none => exact ih st
    | some t => exact ih _

theorem clear_fold_target_keys (okey : Key) (l : List (Option Key)) (st : BState) :
    (l.foldl (fun s e =>
      match e with
      | some t =>
        { s with targetObjs := updateA s.targetObjs t (fun bl => bl.erase okey) }
      | none => s) st).targetObjs.map Prod.fst = st.targetObjs.map Prod.fst := by
  induction l generalizing st with
  | nil => rfl
  | cons e rest ih =>
    rw [List.foldl_cons]
    cases e with
    | none => exact ih st
    | some t =>
      rw [ih]
      show (updateA st.targetObjs t (fun bl => bl.erase okey)).map Prod.fst = _
      rw [keys_updateA]

theorem clear_fold_target_lookup (okey : Key) (l : List (Option Key))
    (st : BState) (x : Key) :
    lookupA (l.foldl (fun s e =>
      match e with
      | some t =>
        { s with targetObjs := updateA s.targetObjs t (fun bl => bl.erase okey) }
      | none => s) st).targetObjs x =
    (lookupA st.targetObjs x).map (erase_iter okey (l.count (some x))) := by
  induction l generalizing st with
  | nil =>
    show lookupA st.targetObjs x =
      (lookupA st.targetObjs x).map (erase_iter okey 0)
    rcases lookupA st.targetObjs x with _ | bl <;> rfl
  | cons e rest ih =>
    rw [List.foldl_cons]
    cases e with
    | none =>
      rw [ih]
      have hcnt : List.count (some x) ((none : Option Key) :: rest) =
          rest.count (some x) := by
        simp [List.count_cons]
      rw [hcnt]
    | some t =>
      rw [ih]
      have hproj : ({ st with
          targetObjs := updateA st.targetObjs t (fun bl => bl.erase okey) } :
          BState).targetObjs = updateA st.targetObjs t (fun bl => bl.erase okey) :=
        rfl
      rw [hproj, lookupA_updateA]
      by_cases hxt : x = t
      · rw [if_pos hxt, ← hxt]
        have hcnt : List.count (some x) (some x :: rest) =
            rest.count (some x) + 1 := by
          simp [List.count_cons]
        rw [hcnt, Option.map_map]
        rcases lookupA st.targetObjs x with _ | bl <;> rfl
      · rw [if_neg hxt]
        have hcnt : List.count (some x) (some t :: rest) =
            rest.count (some x) := by
          simp [List.count_cons, hxt]
        rw [hcnt]

theorem do_clear_preserves (st : BState) (okey : Key) (h : ConsistentB st) :
    ConsistentB (st.do_clear okey) := by
  obtain ⟨hO, hT, h3, h4, h5⟩ := h
  cases hembv : st.embedded with
  | false =>
    have hdc : st.do_clear okey = st.clear_loop okey (st.get_list okey).length := by
      simp [BState.do_clear, hembv]
    rw [hdc]
    cases hpres : lookupA st.originObjs okey with
    | none =>
      have hz : (st.get_list okey).length = 0 := by
        unfold BState.get_list
        rw [hpres]
        rfl
      rw [hz]
      exact ⟨hO, hT, h3, h4, h5⟩
    | some l0 =>
      exact clear_loop_preserves _ st okey l0 ⟨hO, hT, h3, h4, h5⟩ hembv hpres
        (by unfold BState.get_list; rw [hpres]; rfl)
  | true =>
    simp only [BState.do_clear, hembv, Bool.not_true, Bool.false_eq_true, if_false]
    set st1 : BState := (st.get_list okey).foldl (fun s e =>
      match e with
      | some t =>
        { s with targetObjs := updateA s.targetObjs t (fun bl => bl.erase okey) }
      | none => s) st with hst1def
    have hO1 : st1.originObjs = st.originObjs := by
      rw [hst1def]
      exact clear_fold_origins okey (st.get_list okey) st
    have hT1keys : st1.targetObjs.map Prod.fst = st.targetObjs.map Prod.fst := by
      rw [hst1def]
      exact clear_fold_target_keys okey (st.get_list okey) st
    have hT1look : ∀ x, lookupA st1.targetObjs x =
        (lookupA st.targetObjs x).map
          (erase_iter okey ((st.get_list okey).count (some x))) := by
      intro x
      rw [hst1def]
      exact clear_fold_target_lookup okey (st.get_list okey) st x
    have hT1n : (st1.targetObjs.map Prod.fst).Nodup := by
      rw [hT1keys]; exact hT
    have hO1n : (st1.originObjs.map Prod.fst).Nodup := by
      rw [hO1]; exact hO
    have hst2 : ConsistentB
        { st1 with
          originObjs := updateA st1.originObjs okey (fun _ => []) } := by
      refine ⟨?_, ?_, ?_, ?_, ?_⟩
      · show ((updateA st1.originObjs okey (fun _ => [])).map Prod.fst).Nodup
        rw [keys_updateA]
        exact hO1n
      · exact hT1n
      · intro q hq p hp
        have hq1 : q ∈ st1.targetObjs := hq
        have hqx := lookupA_eq_some_of_mem hT1n hq1
        rw [hT1look] at hqx
        rcases Option.map_eq_some'.mp hqx with ⟨bl, hbl, hq2⟩
        have hblmem : (q.1, bl) ∈ st.targetObjs := mem_of_lookupA_eq_some hbl
        have hp1 : p ∈ updateA st1.originObjs okey (fun _ => []) := hp
        rcases decomp_updateA hO1n hp1 with ⟨l1, hl1mem1, hl1val⟩
        have hl1mem : (p.1, l1) ∈ st.originObjs := by
          rw [hO1] at hl1mem1
          exact hl1mem1
        have hc : bl.count p.1 = l1.count (some q.1) :=
          h3 (q.1, bl) hblmem (p.1, l1) hl1mem
        show q.2.count p.1 = p.2.count (some q.1)
        rw [← hq2, hl1val]
        by_cases hpo : p.1 = okey
        · rw [if_pos hpo, hpo]
          rw [hpo] at hc
          have hlook : lookupA st.originObjs okey = some l1 := by
            have hx := lookupA_eq_some_of_mem hO hl1mem
            rw [hpo] at hx
            exact hx
          have hget : st.get_list okey = l1 := by
            unfold BState.get_list
            rw [hlook]
            rfl
          rw [hget, count_erase_iter_self, hc, List.count_nil]
          omega
        · rw [if_neg hpo]
          rw [count_erase_iter_ne okey p.1 hpo]
          exact hc
      · intro q hq o ho
        show o ∈ (updateA st1.originObjs okey (fun _ => [])).map Prod.fst
        rw [keys_updateA, hO1]
        have hq1 : q ∈ st1.targetObjs := hq
        have hqx := lookupA_eq_some_of_mem hT1n hq1
        rw [hT1look] at hqx
        rcases Option.map_eq_some'.mp hqx with ⟨bl, hbl, hq2⟩
        have hblmem : (q.1, bl) ∈ st.targetObjs := mem_of_lookupA_eq_some hbl
        rw [← hq2] at ho
        exact h4 (q.1, bl) hblmem o
          ((erase_iter_sublist okey _ bl).mem ho)
      · intro p hp e he t ht
        show t ∈ st1.targetObjs.map Prod.fst
        rw [hT1keys]
        have hp1 : p ∈ updateA st1.originObjs okey (fun _ => []) := hp
        rcases decomp_updateA hO1n hp1 with ⟨l1, hl1mem1, hl1val⟩
        have hl1mem : (p.1, l1) ∈ st.originObjs := by
          rw [hO1] at hl1mem1
          exact hl1mem1
        rw [hl1val] at he
        by_cases hpo : p.1 = okey
        · rw [if_pos hpo] at he
          exact absurd he (List.not_mem_nil e)
        · rw [if_neg hpo] at he
          exact h5 (p.1, l1) hl1mem e he t ht
    exact removeB_preserves _ _ hst2

/-- The claimed count equality of claim C1 for the list model, derived from
the invariant: each target's backlink-column length equals the total number
of forward references to it across all origin lists. -/
theorem consistent_refCountB (st : BState) (h : ConsistentB st) :
    ∀ q ∈ st.targetObjs, refCountB st q.1 = q.2.length := by
  intro q hq
  obtain ⟨hO, hT, h3, h4, h5⟩ := h
  have hstep1 : st.originObjs.map (fun p => p.2.count (some q.1)) =
      st.originObjs.map (fun p => q.2.count p.1) := by
    refine List.map_congr_left ?_
    intro p hp
    exact (h3 q hq p hp).symm
  have hstep2 : st.originObjs.map (fun p => q.2.count p.1) =
      (st.originObjs.map Prod.fst).map (fun o => q.2.count o) := by
    rw [List.map_map]
    rfl
  show (st.originObjs.map (fun p => p.2.count (some q.1))).sum = q.2.length
  rw [hstep1, hstep2]
  exact sum_count_eq_length _ hO q.2 (fun o ho => h4 q hq o ho)

theorem applyA_preserves (st : ATable) (op : AOp) (h : ConsistentA st) :
    ConsistentA (applyA st op) := by
  cases op with
  | set_key o t =>
    show ConsistentA ((st.set_key o t).toOption.getD st)
    cases hres : st.set_key o t with
    | error e => exact h
    | ok st' => exact set_key_preserves st o t h hres
  | remove_object k =>
    exact (remove_recursive_preserves _ _ _ h).1

theorem applyB_preserves (st : BState) (op : BOp) (h : ConsistentB st)
    (hv : validB st op) : ConsistentB (applyB st op) := by
  cases op with
  | insert o n t =>
    rcases hv with ⟨h1, h2, h3v⟩
    exact do_insert_preserves st o n t h h1 h2 (fun u hu => h3v u hu)
  | set o n t =>
    rcases hv with ⟨h1, h2, h3v⟩
    rcases Option.isSome_iff_exists.mp h1 with ⟨l0, hl0⟩
    refine do_set_preserves st o n t l0 h hl0 ?_ (fun u hu => h3v u hu)
    unfold BState.get_list at h2
    rw [hl0] at h2
    exact h2
  | remove o n =>
    rcases hv with ⟨h1, h2⟩
    rcases Option.isSome_iff_exists.mp h1 with ⟨l0, hl0⟩
    refine do_remove_preserves st o n l0 h hl0 ?_
    unfold BState.get_list at h2
    rw [hl0] at h2
    exact h2
  | clear o => exact do_clear_preserves st o h

/-- C1: link consistency invariant.  After any completed link-mutating
operation — `Obj::set<Key>` or cascading object removal on the single-link
model, and `Lst<ObjKey>` insert/set/remove/clear on the list model — for
every object `k` of the link-target table, the number of references to `k`
held in the forward link column summed over all origin objects (counting
each occurrence in a link list) equals `k`'s backlink count for that
column. -/
theorem C1_link_consistency :
    (∀ (st : ATable) (op : AOp), ConsistentA st →
      ConsistentA (applyA st op) ∧
      ∀ p ∈ (applyA st op).objs,
        refCountA (applyA st op) p.1 = p.2.backlinks.length) ∧
    (∀ (st : BState) (op : BOp), ConsistentB st → validB st op →
      ConsistentB (applyB st op) ∧
      ∀ q ∈ (applyB st op).targetObjs,
        refCountB (applyB st op) q.1 = q.2.length) := by
  constructor
  · intro st op h
    have hpost := applyA_preserves st op h
    exact ⟨hpost, consistent_refCount _ hpost⟩
  · intro st op h hv
    have hpost := applyB_preserves st op h hv
    exact ⟨hpost, consistent_refCountB _ hpost⟩

/-- Witness: the C1 theorem applied to concrete consistent tables and
concrete operations. -/
theorem C1_link_consistency_witness :
    ConsistentA sampleATable ∧
    ConsistentB sampleBState ∧
    validB sampleBState (BOp.insert 1 0 (some 5)) ∧
    (ConsistentA (applyA sampleATable (AOp.set_key 1 none)) ∧
      ∀ p ∈ (applyA sampleATable (AOp.set_key 1 none)).objs,
        refCountA (applyA sampleATable (AOp.set_key 1 none)) p.1 =
          p.2.backlinks.length) ∧
    (ConsistentB (applyB sampleBState (BOp.insert 1 0 (some 5))) ∧
      ∀ q ∈ (applyB sampleBState (BOp.insert 1 0 (some 5))).targetObjs,
        refCountB (applyB sampleBState (BOp.insert 1 0 (some 5))) q.1 =
          q.2.length) :=
  ⟨by decide, by decide,
    ⟨by decide, by decide, fun u hu => by cases hu; decide⟩,
    C1_link_consistency.1 sampleATable (AOp.set_key 1 none) (by decide),
    C1_link_consistency.2 sampleBState (BOp.insert 1 0 (some 5)) (by decide)
      ⟨by decide, by decide, fun u hu => by cases hu; decide⟩⟩

theorem nullify_fold_repl (bs : List Key) (st : ATable) (k : Key) :
    ∃ tail, (bs.foldl (fun s o => s.nullify_link o k) st).repl =
      st.repl ++ tail := by
  induction bs generalizing st with
  | nil => exact ⟨[], by simp⟩
  | cons b rest ih =>
    rw [List.foldl_cons]
    rcases ih (st.nullify_link b k) with ⟨t2, ht2⟩
    refine ⟨[Instr.instr_Set b none] ++ t2, ?_⟩
    rw [ht2]
    show (st.repl ++ [Instr.instr_Set b none]) ++ t2 = _
    rw [List.append_assoc]

theorem remove_object_once_repl (st : ATable) (k : Key) :
    ∃ tail, (st.remove_object_once k).1.repl = st.repl ++ tail := by
  rcases hk : lookupA st.objs k with _ | ob
  · have he : st.remove_object_once k = (st, []) := by
      unfold ATable.remove_object_once
      rw [hk]
    rw [he]
    exact ⟨[], by simp⟩
  · rcases nullify_fold_repl ob.backlinks st k with ⟨t1, ht1⟩
    rcases hlink : ob.link with _ | t
    · refine ⟨t1, ?_⟩
      simp only [ATable.remove_object_once, hk, hlink]
      exact ht1
    · by_cases htk : t = k
      · refine ⟨t1, ?_⟩
        simp only [ATable.remove_object_once, hk, hlink, if_pos htk]
        exact ht1
      · refine ⟨t1, ?_⟩
        simp only [ATable.remove_object_once, hk, hlink, if_neg htk]
        split
        · exact ht1
        · exact ht1

theorem remove_recursive_repl (fuel : Nat) :
    ∀ (wl : List Key) (st : ATable),
      ∃ tail, (st.remove_recursive fuel wl).repl = st.repl ++ tail := by
  induction fuel with
  | zero =>
    exact fun wl st => ⟨[], by
      show st.repl = st.repl ++ []
      rw [List.append_nil]⟩
  | succ n ih =>
    intro wl st
    cases wl with
    | nil =>
      exact ⟨[], by
        show st.repl = st.repl ++ []
        rw [List.append_nil]⟩
    | cons k rest =>
      show ∃ tail, ((st.remove_object_once k).1.remove_recursive n
        (rest ++ (st.remove_object_once k).2)).repl = st.repl ++ tail
      rcases ih (rest ++ (st.remove_object_once k).2)
        (st.remove_object_once k).1 with ⟨t2, ht2⟩
      rcases remove_object_once_repl st k with ⟨t1, ht1⟩
      refine ⟨t1 ++ t2, ?_⟩
      rw [ht2, ht1, List.append_assoc]

theorem update_backlinks_flag_none (st : ATable) (okey : Key)
    (newk : Option Key) :
    (st.update_backlinks okey none newk).1 = false := by
  cases newk <;> rfl

theorem update_backlinks_flag (st : ATable) (okey t : Key) (newk : Option Key) :
    (st.update_backlinks okey (some t) newk).1 =
      (st.strong &&
        decide ((st.remove_one_backlink t okey).backlink_count t = 0)) := by
  cases newk with
  | none =>
    simp only [ATable.update_backlinks]
    split
    · rename_i hcond; exact hcond.symm
    · rename_i hcond; exact (Bool.eq_false_iff.mpr hcond).symm
  | some u =>
    simp only [ATable.update_backlinks]
    split
    · rename_i hcond; exact hcond.symm
    · rename_i hcond; exact (Bool.eq_false_iff.mpr hcond).symm

theorem update_backlinks_flag_true (st : ATable) (okey : Key)
    (oldk newk : Option Key)
    (hf : (st.update_backlinks okey oldk newk).1 = true) :
    ∃ t0, oldk = some t0 ∧ st.strong = true ∧
      (st.remove_one_backlink t0 okey).backlink_count t0 = 0 ∧
      (st.update_backlinks okey oldk newk).2.1 = [t0] := by
  cases oldk with
  | none =>
    rw [update_backlinks_flag_none] at hf
    exact absurd hf (by simp)
  | some t =>
    rw [update_backlinks_flag] at hf
    have hparts := hf
    rw [Bool.and_eq_true] at hparts
    refine ⟨t, rfl, hparts.1, of_decide_eq_true hparts.2, ?_⟩
    have hcond : (st.strong &&
        decide ((st.remove_one_backlink t okey).backlink_count t = 0)) = true :=
      hf
    cases newk <;> simp only [ATable.update_backlinks] <;> rw [if_pos hcond]

/-- C2: the link write protocol of `Obj::set<Key>` on a stored key that
differs from the new key.  The call succeeds; the replication sink receives
the `instr_Set` instruction right after the prior instructions; when no
cascade is reported, the column stores the new key, the old target (if any)
lost exactly one backlink entry, the new target (if any) gained exactly one,
the instruction is the only emission and no object is removed; when a
cascade is reported, the column is strong, the old target's backlink count
had dropped to zero, and the old target has been removed recursively. -/
theorem C2_link_write_protocol (st : ATable) (okey : Key) (target : Option Key)
    (ob : AObj) (h : ConsistentA st) (ho : lookupA st.objs okey = some ob)
    (hv : st.is_valid target = true) (hne : target ≠ ob.link) :
    ∃ st', st.set_key okey target = .ok st' ∧
      (∃ tail, st'.repl = (st.repl ++ [Instr.instr_Set okey target]) ++ tail) ∧
      ((st.update_backlinks okey ob.link target).1 = false →
        linkOf st'.objs okey = target ∧
        (∀ t0, ob.link = some t0 →
          st'.backlink_count t0 + 1 = st.backlink_count t0) ∧
        (∀ u, target = some u →
          st'.backlink_count u = st.backlink_count u + 1) ∧
        st'.repl = st.repl ++ [Instr.instr_Set okey target] ∧
        st'.objs.map Prod.fst = st.objs.map Prod.fst) ∧
      ((st.update_backlinks okey ob.link target).1 = true →
        st.strong = true ∧
        ∃ t0, ob.link = some t0 ∧
          (st.remove_one_backlink t0 okey).backlink_count t0 = 0 ∧
          lookupA st'.objs t0 = none) := by
  have hvalid : ∀ u, target = some u → (lookupA st.objs u).isSome = true := by
    intro u hu
    rw [hu] at hv
    exact hv
  have hkeys3 : (updateA (st.update_backlinks okey ob.link target).2.2.objs okey
      (fun x => { x with link := target })).map Prod.fst =
        st.objs.map Prod.fst := by
    rw [keys_updateA, update_backlinks_objs, keys_updateOpt, keys_updateOpt]
  have hlook3 : ∀ x, lookupA (updateA
      (st.update_backlinks okey ob.link target).2.2.objs okey
      (fun x => { x with link := target })) x =
        (lookupA st.objs x).map (fun ob0 =>
          { link := if x = okey then target else ob0.link
            backlinks :=
              (if ob.link = some x then ob0.backlinks.erase okey
                else ob0.backlinks) ++
                (if target = some x then [okey] else []) }) := by
    intro x
    rw [lookupA_updateA, update_backlinks_objs]
    by_cases hxo : x = okey
    · subst hxo
      rw [if_pos rfl, lookupA_updateOpt, lookupA_updateOpt]
      by_cases h2 : target = some x <;> by_cases h3 : ob.link = some x <;>
        simp only [h2, h3, if_pos, if_neg, if_true, if_false] <;>
        rcases lookupA st.objs x with _ | ob0 <;>
        simp
    · rw [if_neg hxo, lookupA_updateOpt, lookupA_updateOpt]
      by_cases h2 : target = some x <;> by_cases h3 : ob.link = some x <;>
        simp only [h2, h3, if_pos, if_neg, if_true, if_false] <;>
        rcases lookupA st.objs x with _ | ob0 <;>
        simp [hxo]
  have hst3 : ConsistentA (ATable.mk
      (updateA (st.update_backlinks okey ob.link target).2.2.objs okey
        (fun x => { x with link := target }))
      (st.update_backlinks okey ob.link target).2.2.strong
      ((st.update_backlinks okey ob.link target).2.2.repl ++
        [Instr.instr_Set okey target])) :=
    consistent_of_rewire st okey ob target h ho hvalid hne _ hkeys3 hlook3
  have hrepl3 : ((st.update_backlinks okey ob.link target).2.2.repl ++
      [Instr.instr_Set okey target]) =
        st.repl ++ [Instr.instr_Set okey target] := by
    rw [update_backlinks_repl]
  have heq : st.set_key okey target = .ok
      (if (st.update_backlinks okey ob.link target).1 then
        (ATable.mk
          (updateA (st.update_backlinks okey ob.link target).2.2.objs okey
            (fun x => { x with link := target }))
          (st.update_backlinks okey ob.link target).2.2.strong
          ((st.update_backlinks okey ob.link target).2.2.repl ++
            [Instr.instr_Set okey target])).remove_recursive
          (updateA (st.update_backlinks okey ob.link target).2.2.objs okey
            (fun x => { x with link := target })).length
          (st.update_backlinks okey ob.link target).2.1
      else
        ATable.mk
          (updateA (st.update_backlinks okey ob.link target).2.2.objs okey
            (fun x => { x with link := target }))
          (st.update_backlinks okey ob.link target).2.2.strong
          ((st.update_backlinks okey ob.link target).2.2.repl ++
            [Instr.instr_Set okey target])) := by
    unfold ATable.set_key
    rw [hv]
    simp only [Bool.not_true, Bool.false_eq_true, if_false, ho, if_neg hne]
  cases hr1 : (st.update_backlinks okey ob.link target).1 with
  | false =>
    rw [hr1] at heq
    simp only [Bool.false_eq_true, if_false] at heq
    refine ⟨_, heq, ⟨[], ?_⟩, ?_, ?_⟩
    · show ((st.update_backlinks okey ob.link target).2.2.repl ++
        [Instr.instr_Set okey target]) = _
      rw [hrepl3, List.append_nil]
    · intro _
      refine ⟨?_, ?_, ?_, ?_, hkeys3⟩
      · show linkOf (updateA (st.update_backlinks okey ob.link target).2.2.objs
          okey (fun x => { x with link := target })) okey = target
        unfold linkOf
        rw [hlook3 okey, ho]
        simp
      · intro t0 ht0
        have hnt : target ≠ some t0 := by
          rw [ht0] at hne
          exact hne
        have hmem0 : (okey, ob) ∈ st.objs := mem_of_lookupA_eq_some ho
        rcases h.2.2.2 (okey, ob) hmem0 t0 (by rw [ht0]; simp) with
          ⟨q, hq, hqk, hoq⟩
        have hoq' : okey ∈ q.2.backlinks := hoq
        have hlq : lookupA st.objs t0 = some q.2 := by
          have hx := lookupA_eq_some_of_mem h.1 hq
          rw [hqk] at hx
          exact hx
        have hlen1 : 1 ≤ q.2.backlinks.length :=
          List.length_pos.mpr (List.ne_nil_of_mem hoq')
        have herase : (q.2.backlinks.erase okey).length =
            q.2.backlinks.length - 1 := List.length_erase_of_mem hoq'
        show ((lookupA (updateA (st.update_backlinks okey ob.link target).2.2.objs
            okey (fun x => { x with link := target })) t0).map
              (fun x => x.backlinks.length)).getD 0 + 1 =
          st.backlink_count t0
        rw [hlook3 t0, hlq]
        unfold ATable.backlink_count
        rw [hlq]
        simp [ht0, hnt, herase]
        omega
      · intro u hu
        have hnl : ¬(ob.link = some u) := fun hc => hne (hu.trans hc.symm)
        rcases Option.isSome_iff_exists.mp (hvalid u hu) with ⟨obu, hobu⟩
        show ((lookupA (updateA (st.update_backlinks okey ob.link target).2.2.objs
            okey (fun x => { x with link := target })) u).map
              (fun x => x.backlinks.length)).getD 0 =
          st.backlink_count u + 1
        rw [hlook3 u, hobu]
        unfold ATable.backlink_count
        rw [hobu]
        simp [hu, hnl]
      · show ((st.update_backlinks okey ob.link target).2.2.repl ++
          [Instr.instr_Set okey target]) = _
        exact hrepl3
    · intro hcontra
      exact absurd hcontra (by simp)
  | true =>
    rw [hr1] at heq
    rw [if_pos rfl] at heq
    rcases update_backlinks_flag_true st okey ob.link target hr1 with
      ⟨t0, ht0, hstrong, hzero, hrows⟩
    have hlen : (updateA (st.update_backlinks okey ob.link target).2.2.objs okey
        (fun x => { x with link := target })).length = st.objs.length := by
      have hx := congrArg List.length hkeys3
      rwa [List.length_map, List.length_map] at hx
    obtain ⟨n, hn⟩ : ∃ n, st.objs.length = n + 1 :=
      ⟨st.objs.length - 1, by
        have : 0 < st.objs.length :=
          List.length_pos.mpr (List.ne_nil_of_mem (mem_of_lookupA_eq_some ho))
        omega⟩
    refine ⟨_, heq, ?_, ?_, ?_⟩
    · rcases remove_recursive_repl
        (updateA (st.update_backlinks okey ob.link target).2.2.objs okey
          (fun x => { x with link := target })).length
        (st.update_backlinks okey ob.link target).2.1
        (ATable.mk
          (updateA (st.update_backlinks okey ob.link target).2.2.objs okey
            (fun x => { x with link := target }))
          (st.update_backlinks okey ob.link target).2.2.strong
          ((st.update_backlinks okey ob.link target).2.2.repl ++
            [Instr.instr_Set okey target])) with ⟨tail, htail⟩
      refine ⟨tail, ?_⟩
      rw [htail]
      show ((st.update_backlinks okey ob.link target).2.2.repl ++
        [Instr.instr_Set okey target]) ++ tail = _
      rw [hrepl3]
    · intro hcontra
      exact absurd hcontra (by simp)
    · intro _
      refine ⟨hstrong, t0, ht0, hzero, ?_⟩
      rw [hrows, hlen, hn]
      exact remove_recursive_head_removed n t0 [] _ hst3

/-- Witness: the C2 theorem applied to a concrete strong-link table where
object 1 rewrites its link from object 2 to null, cascading 2 away. -/
theorem C2_link_write_protocol_witness :
    ConsistentA sampleATable ∧
    lookupA sampleATable.objs 1 = some { link := some 2, backlinks := [] } ∧
    sampleATable.is_valid none = true ∧
    ((none : Option Key) ≠ some 2) ∧
    (∃ st', sampleATable.set_key 1 none = .ok st' ∧
      (∃ tail, st'.repl =
        (sampleATable.repl ++ [Instr.instr_Set 1 none]) ++ tail) ∧
      ((sampleATable.update_backlinks 1 (some 2) none).1 = false →
        linkOf st'.objs 1 = none ∧
        (∀ t0, (some 2 : Option Key) = some t0 →
          st'.backlink_count t0 + 1 = sampleATable.backlink_count t0) ∧
        (∀ u, (none : Option Key) = some u →
          st'.backlink_count u = sampleATable.backlink_count u + 1) ∧
        st'.repl = sampleATable.repl ++ [Instr.instr_Set 1 none] ∧
        st'.objs.map Prod.fst = sampleATable.objs.map Prod.fst) ∧
      ((sampleATable.update_backlinks 1 (some 2) none).1 = true →
        sampleATable.strong = true ∧
        ∃ t0, (some 2 : Option Key) = some t0 ∧
          (sampleATable.remove_one_backlink t0 1).backlink_count t0 = 0 ∧
          lookupA st'.objs t0 = none)) :=
  ⟨by decide, rfl, rfl, by decide,
    C2_link_write_protocol sampleATable 1 none
      { link := some 2, backlinks := [] } (by decide) rfl rfl (by decide)⟩

/-- C10: `Obj::set<Key>` with the currently stored key is a no-op on
observable state — the returned table is the input table itself, so the
column value, both backlink columns, the cascade behaviour and the
replication log are all unchanged. -/
theorem C10_set_key_noop (st : ATable) (okey : Key) (target : Option Key)
    (ob : AObj) (ho : lookupA st.objs okey = some ob)
    (hv : st.is_valid target = true) (heq : target = ob.link) :
    st.set_key okey target = .ok st := by
  unfold ATable.set_key
  rw [hv]
  simp only [Bool.not_true, Bool.false_eq_true, if_false, ho, if_pos heq]

/-- Witness: the C10 theorem applied to a concrete table, re-setting object
1's link to its stored value. -/
theorem C10_set_key_noop_witness :
    lookupA sampleATable.objs 1 = some { link := some 2, backlinks := [] } ∧
    sampleATable.is_valid (some 2) = true ∧
    ((some 2 : Option Key) = some 2) ∧
    sampleATable.set_key 1 (some 2) = .ok sampleATable :=
  ⟨rfl, rfl, rfl,
    C10_set_key_noop sampleATable 1 (some 2)
      { link := some 2, backlinks := [] } rfl rfl rfl⟩

/-- C5: clearing a link list whose target table is embedded removes every
currently referenced target from the target table (each referenced target
is deleted recursively after its sole backlink is removed) and leaves the
list empty. -/
theorem C5_embedded_clear (st : BState) (okey : Key) (l0 : List (Option Key))
    (hemb : st.embedded = true)
    (hl0 : lookupA st.originObjs okey = some l0) :
    (st.do_clear okey).get_list okey = [] ∧
    ∀ t, some t ∈ l0 → lookupA (st.do_clear okey).targetObjs t = none := by
  have hget : st.get_list okey = l0 := by
    unfold BState.get_list
    rw [hl0]
    rfl
  have hdc : st.do_clear okey =
      BState.remove_recursive
        { (st.get_list okey).foldl (fun s e =>
            match e with
            | some t =>
              { s with
                targetObjs := updateA s.targetObjs t (fun bl => bl.erase okey) }
            | none => s) st with
          originObjs := updateA ((st.get_list okey).foldl (fun s e =>
            match e with
            | some t =>
              { s with
                targetObjs := updateA s.targetObjs t (fun bl => bl.erase okey) }
            | none => s) st).originObjs okey (fun _ => []) }
        ((st.get_list okey).filterMap id) := by
    simp only [BState.do_clear, hemb, Bool.not_true, Bool.false_eq_true, if_false]
  constructor
  · show ((lookupA (st.do_clear okey).originObjs okey).getD []) = []
    rw [hdc, removeB_origin_lookup]
    have hproj : ({ (st.get_list okey).foldl (fun s e =>
        match e with
        | some t =>
          { s with
            targetObjs := updateA s.targetObjs t (fun bl => bl.erase okey) }
        | none => s) st with
        originObjs := updateA ((st.get_list okey).foldl (fun s e =>
          match e with
          | some t =>
            { s with
              targetObjs := updateA s.targetObjs t (fun bl => bl.erase okey) }
          | none => s) st).originObjs okey (fun _ => []) } : BState).originObjs =
        updateA ((st.get_list okey).foldl (fun s e =>
          match e with
          | some t =>
            { s with
              targetObjs := updateA s.targetObjs t (fun bl => bl.erase okey) }
          | none => s) st).originObjs okey (fun _ => []) := rfl
    rw [hproj, lookupA_updateA, if_pos rfl, clear_fold_origins, hl0]
    simp
  · intro t ht
    rw [hdc, removeB_target_lookup]
    have hmem : t ∈ (st.get_list okey).filterMap id := by
      rw [hget]
      exact List.mem_filterMap.mpr ⟨some t, ht, rfl⟩
    rw [if_pos hmem]

/-- Witness: the C5 theorem applied to a concrete embedded-target list. -/
theorem C5_embedded_clear_witness :
    sampleBEmbedded.embedded = true ∧
    lookupA sampleBEmbedded.originObjs 1 = some [some 5] ∧
    ((sampleBEmbedded.do_clear 1).get_list 1 = [] ∧
      ∀ t, some t ∈ [some (5 : Key)] →
        lookupA (sampleBEmbedded.do_clear 1).targetObjs t = none) :=
  ⟨rfl, rfl, C5_embedded_clear sampleBEmbedded 1 [some 5] rfl rfl⟩

theorem add_wrap_eq_wrapSignedSpec (a b : Int) :
    add_wrap a b = wrapSignedSpec (a + b) := by
  unfold add_wrap wrapSignedSpec toInt64Model toUInt64Model twoPow63 twoPow64
  split <;> omega

/-- C3: migration failure atomicity.  When the user migration callback
throws (here the string `error`), the open call surfaces exactly that value
and the persisted file afterwards is the unchanged pre-migration file; a
subsequent open of that file with the same configuration — whose callback
now completes, as in the rollback test — succeeds and commits the migrated
file. -/
theorem C3_migration_failure_atomicity (file : RealmFile) (cfg : OpenConfig)
    (hv : ¬ file.schema_version = cfg.schema_version)
    (hthrow : cfg.migration file
      { schema_version := cfg.schema_version, data := cfg.required } =
        .error "error")
    (cfg2 : OpenConfig)
    (hsame : cfg2.schema_version = cfg.schema_version ∧
      cfg2.required = cfg.required)
    (hok2 : cfg2.migration file
      { schema_version := cfg2.schema_version, data := cfg2.required } =
        .ok ()) :
    open_shared_realm file cfg = (file, .error "error") ∧
    open_shared_realm file cfg2 =
      ({ schema_version := cfg.schema_version, data := cfg.required }, .ok ()) := by
  constructor
  · unfold open_shared_realm
    rw [if_neg hv]
    show (match cfg.migration file
        { schema_version := cfg.schema_version, data := cfg.required } with
      | Except.error e => (file, Except.error e)
      | Except.ok _ =>
        (({ schema_version := cfg.schema_version,
            data := cfg.required } : RealmFile), Except.ok ())) =
      (file, Except.error "error")
    rw [hthrow]
  · have hv2 : ¬ file.schema_version = cfg2.schema_version := by
      rw [hsame.1]
      exact hv
    unfold open_shared_realm
    rw [if_neg hv2]
    show (match cfg2.migration file
        { schema_version := cfg2.schema_version, data := cfg2.required } with
      | Except.error e => (file, Except.error e)
      | Except.ok _ =>
        (({ schema_version := cfg2.schema_version,
            data := cfg2.required } : RealmFile), Except.ok ())) =
      ({ schema_version := cfg.schema_version, data := cfg.required },
        Except.ok ())
    rw [hok2, hsame.1, hsame.2]

/-- Witness: the C3 theorem applied to the rollback test's concrete file and
configurations. -/
theorem C3_migration_failure_atomicity_witness :
    ¬ sampleRealmFile.schema_version = sampleThrowingCfg.schema_version ∧
    sampleThrowingCfg.migration sampleRealmFile
      { schema_version := sampleThrowingCfg.schema_version,
        data := sampleThrowingCfg.required } = .error "error" ∧
    (sampleRetryCfg.schema_version = sampleThrowingCfg.schema_version ∧
      sampleRetryCfg.required = sampleThrowingCfg.required) ∧
    sampleRetryCfg.migration sampleRealmFile
      { schema_version := sampleRetryCfg.schema_version,
        data := sampleRetryCfg.required } = .ok () ∧
    (open_shared_realm sampleRealmFile sampleThrowingCfg =
      (sampleRealmFile, .error "error") ∧
    open_shared_realm sampleRealmFile sampleRetryCfg =
      ({ schema_version := sampleThrowingCfg.schema_version,
         data := sampleThrowingCfg.required }, .ok ())) :=
  ⟨by decide, rfl, ⟨rfl, rfl⟩, rfl,
    C3_migration_failure_atomicity sampleRealmFile sampleThrowingCfg
      (by decide) rfl sampleRetryCfg ⟨rfl, rfl⟩ rfl⟩

/-- C4: the out-of-range claim fails on the source's guards.  With public
column count 1 and `col_ndx = 1` (so `col_ndx >= count`), the strict `>`
guard shared by `ConstObj::get<T>`, `Obj::add_int` and `Obj::set_null`
(obj.cpp) does not throw — the calls proceed and succeed — while the sibling
`>=` guard of `Obj::set<Key>` throws `column_index_out_of_range` for the
same index, as the claim requires of all four. -/
theorem C4_out_of_range_guard_bug :
    ConstObj.get_guard 1 1 = none ∧
    Obj.add_int 1 1 (.nonNullable 0) 1 = .ok (.nonNullable 1) ∧
    (Obj.set_null 1 1 true : Except LogicError (Option Int)) = .ok none ∧
    Obj.set_key_guard 1 1 = some .column_index_out_of_range := by
  refine ⟨rfl, ?_, rfl, rfl⟩
  rfl

/-- C6: writing null into a non-nullable column — with the column index in
range, `Obj::set` of a null value and `Obj::set_null` both throw
`column_not_nullable`; the failing calls produce no new slot state, so the
stored value is unchanged. -/
theorem C6_null_into_non_nullable (publicCount colNdx : Nat)
    (hcol : ¬ publicCount < colNdx) :
    Obj.set_nullable publicCount colNdx false (none : Option Int) =
      .error .column_not_nullable ∧
    (Obj.set_null publicCount colNdx false : Except LogicError (Option Int)) =
      .error .column_not_nullable := by
  constructor
  · unfold Obj.set_nullable
    rw [if_neg hcol]
    rfl
  · unfold Obj.set_null
    rw [if_neg hcol]
    rfl

/-- Witness: the C6 theorem applied at an in-range column index. -/
theorem C6_null_into_non_nullable_witness :
    ¬ (1 : Nat) < 1 ∧
    (Obj.set_nullable 1 1 false (none : Option Int) =
      .error .column_not_nullable ∧
    (Obj.set_null 1 1 false : Except LogicError (Option Int)) =
      .error .column_not_nullable) :=
  ⟨by decide, C6_null_into_non_nullable 1 1 (by decide)⟩

/-- C9: `Obj::add_int` on a non-nullable Int column never fails on overflow:
for 64-bit signed `old` and `v` it stores the two's-complement wraparound
sum `(old + v) mod 2^64` reinterpreted as signed; on a nullable column
holding null it throws `illegal_combination` and produces no new slot
state. -/
theorem C9_add_int_wraparound (publicCount colNdx : Nat)
    (hcol : ¬ publicCount < colNdx) (old v : Int)
    (hold : -twoPow63 ≤ old ∧ old < twoPow63)
    (hv : -twoPow63 ≤ v ∧ v < twoPow63) :
    Obj.add_int publicCount colNdx (.nonNullable old) v =
      .ok (.nonNullable (wrapSignedSpec (old + v))) ∧
    Obj.add_int publicCount colNdx (.nullable none) v =
      .error .illegal_combination := by
  constructor
  · unfold Obj.add_int
    rw [if_neg hcol]
    show Except.ok (IntColVal.nonNullable (add_wrap old v)) = _
    rw [add_wrap_eq_wrapSignedSpec]
  · unfold Obj.add_int
    rw [if_neg hcol]

/-- Witness: the C9 theorem applied at Int64 extremes whose sum wraps. -/
theorem C9_add_int_wraparound_witness :
    ¬ (1 : Nat) < 1 ∧
    (-twoPow63 ≤ (9223372036854775807 : Int) ∧
      (9223372036854775807 : Int) < twoPow63) ∧
    (-twoPow63 ≤ (1 : Int) ∧ (1 : Int) < twoPow63) ∧
    (Obj.add_int 1 1 (.nonNullable 9223372036854775807) 1 =
      .ok (.nonNullable (wrapSignedSpec (9223372036854775807 + 1))) ∧
    Obj.add_int 1 1 (.nullable none) 1 = .error .illegal_combination) :=
  ⟨by decide, by decide, by decide,
    C9_add_int_wraparound 1 1 (by decide) 9223372036854775807 1
      (by decide) (by decide)⟩

theorem getD_append_left {l1 l2 : List Nat} {i : Nat} (h : i < l1.length) :
    (l1 ++ l2).getD i 0 = l1.getD i 0 := by
  simp [List.getD_eq_getElem?_getD, List.getElem?_append_left h]

theorem getD_append_right {l1 l2 : List Nat} {i : Nat} (h : l1.length ≤ i) :
    (l1 ++ l2).getD i 0 = l2.getD (i - l1.length) 0 := by
  simp [List.getD_eq_getElem?_getD, List.getElem?_append_right h]

theorem getD_take {l : List Nat} {n i : Nat} (h : i < n) :
    (l.take n).getD i 0 = l.getD i 0 := by
  simp [List.getD_eq_getElem?_getD, List.getElem?_take, h]

theorem getD_drop (l : List Nat) (n i : Nat) :
    (l.drop n).getD i 0 = l.getD (n + i) 0 := by
  simp [List.getD_eq_getElem?_getD, List.getElem?_drop]

theorem getD_map_add {l : List Nat} {k i : Nat} (h : i < l.length) :
    (l.map (· + k)).getD i 0 = l.getD i 0 + k := by
  simp [List.getD_eq_getElem?_getD, List.getElem?_map, List.getElem?_eq_getElem, h]

theorem getD_map_sub {l : List Nat} {k i : Nat} (h : i < l.length) :
    (l.map (· - k)).getD i 0 = l.getD i 0 - k := by
  simp [List.getD_eq_getElem?_getD, List.getElem?_map, List.getElem?_eq_getElem, h]

theorem slice_prefix (bl rest : List Nat) (a b pos : Nat) (hb : b ≤ pos)
    (hpos : pos ≤ bl.length) :
    slice (bl.take pos ++ rest) a b = slice bl a b := by
  rcases le_or_lt a b with hab | hab
  · have ha : a ≤ pos := le_trans hab hb
    have hlen : (bl.take pos).length = pos := by
      rw [List.length_take]; exact min_eq_left hpos
    unfold slice
    rw [List.drop_append_eq_append_drop, hlen, Nat.sub_eq_zero_of_le ha,
      List.drop_zero, List.take_append_of_le_length]
    · rw [List.drop_take, List.take_take, min_eq_left (Nat.sub_le_sub_right hb a)]
    · rw [List.length_drop, hlen]; omega
  · unfold slice
    rw [Nat.sub_eq_zero_of_le (Nat.le_of_lt hab)]
    simp

theorem slice_middle (bl v : List Nat) (pos : Nat) (hpos : pos ≤ bl.length) :
    slice (bl.take pos ++ v ++ bl.drop pos) pos (pos + v.length) = v := by
  have hlen : (bl.take pos).length = pos := by
    rw [List.length_take]; exact min_eq_left hpos
  unfold slice
  rw [List.append_assoc, List.drop_append_eq_append_drop, hlen, Nat.sub_self]
  have h1 : (bl.take pos).drop pos = [] :=
    List.drop_eq_nil_of_le (le_of_eq hlen)
  rw [h1, List.nil_append, List.drop_zero, Nat.add_sub_cancel_left]
  exact List.take_left ..

theorem slice_after (bl mid : List Nat) (a b start stop : Nat)
    (h1 : start ≤ stop) (h2 : stop ≤ bl.length) (h3 : stop ≤ a) (h4 : a ≤ b) :
    slice (bl.take start ++ mid ++ bl.drop stop)
      (a - stop + start + mid.length) (b - stop + start + mid.length) =
    slice bl a b := by
  have hst : start ≤ bl.length := le_trans h1 h2
  have hlen : (bl.take start).length = start := by
    rw [List.length_take]; exact min_eq_left hst
  unfold slice
  rw [List.append_assoc, List.drop_append_eq_append_drop]
  have h5 : (bl.take start).drop (a - stop + start + mid.length) = [] := by
    apply List.drop_eq_nil_of_le
    rw [hlen]; omega
  rw [h5, List.nil_append, hlen, List.drop_append_eq_append_drop]
  have h6 : mid.drop (a - stop + start + mid.length - start) = [] := by
    apply List.drop_eq_nil_of_le; omega
  rw [h6, List.nil_append]
  have h7 : a - stop + start + mid.length - start - mid.length = a - stop := by omega
  rw [h7, List.drop_drop]
  have h8 : stop + (a - stop) = a := by omega
  rw [h8]
  congr 1
  omega

namespace ArrayBinary

theorem getD_mono (a : ArrayBinary) (hwf : a.WF) {i j : Nat} (hij : i ≤ j)
    (hj : j < a.Size) : a.m_offsets.getD i 0 ≤ a.m_offsets.getD j 0 := by
  rcases eq_or_lt_of_le hij with rfl | hlt
  · exact le_refl _
  · have h := hwf.1
    rw [List.pairwise_iff_getElem] at h
    have hj' : j < a.m_offsets.length := hj
    have hi : i < a.m_offsets.length := lt_trans hlt hj'
    have := h i j hi hj' hlt
    simpa [List.getD_eq_getElem?_getD, List.getElem?_eq_getElem, hi, hj'] using this

theorem getD_le_blob (a : ArrayBinary) (hwf : a.WF) {i : Nat} (hi : i < a.Size) :
    a.m_offsets.getD i 0 ≤ a.m_blob.length := by
  rw [hwf.2]
  have hi' : i < a.m_offsets.length := hi
  exact a.getD_mono hwf (by omega) (by show _ < a.m_offsets.length; omega)

theorem startOf_le_getD (a : ArrayBinary) (hwf : a.WF) {ndx : Nat}
    (h : ndx < a.Size) : a.startOf ndx ≤ a.m_offsets.getD ndx 0 := by
  unfold startOf
  split
  · exact Nat.zero_le _
  · exact a.getD_mono hwf (by omega) h

theorem startOf_mono (a : ArrayBinary) (hwf : a.WF) {i j : Nat} (hij : i ≤ j)
    (hj : j ≤ a.Size) : a.startOf i ≤ a.startOf j := by
  unfold startOf
  rcases Nat.eq_zero_or_pos i with rfl | hi
  · simp
  · have hine : i ≠ 0 := by omega
    have hjne : j ≠ 0 := by omega
    rw [if_neg hine, if_neg hjne]
    have hj' : j ≤ a.m_offsets.length := hj
    exact a.getD_mono hwf (by omega) (by show _ < a.m_offsets.length; omega)

theorem startOf_le_blob (a : ArrayBinary) (hwf : a.WF) {ndx : Nat}
    (h : ndx ≤ a.Size) : a.startOf ndx ≤ a.m_blob.length := by
  unfold startOf
  split
  · exact Nat.zero_le _
  · next hne =>
    have h' : ndx ≤ a.m_offsets.length := h
    exact a.getD_le_blob hwf (by show _ < a.m_offsets.length; omega)

theorem take_offsets_length (a : ArrayBinary) {ndx : Nat} (hndx : ndx ≤ a.Size) :
    (a.m_offsets.take ndx).length = ndx := by
  rw [List.length_take]; exact min_eq_left hndx

theorem insert_offsets_lt (a : ArrayBinary) (v : List Nat) {ndx i : Nat}
    (hndx : ndx ≤ a.Size) (hi : i < ndx) :
    (a.Insert ndx v).m_offsets.getD i 0 = a.m_offsets.getD i 0 := by
  simp only [Insert, List.append_assoc]
  rw [getD_append_left (by rw [a.take_offsets_length hndx]; exact hi)]
  exact getD_take hi

theorem insert_offsets_at (a : ArrayBinary) (v : List Nat) {ndx : Nat}
    (hndx : ndx ≤ a.Size) :
    (a.Insert ndx v).m_offsets.getD ndx 0 = a.startOf ndx + v.length := by
  simp only [Insert, List.append_assoc]
  rw [getD_append_right (le_of_eq (a.take_offsets_length hndx))]
  rw [a.take_offsets_length hndx]
  simp

theorem insert_offsets_gt (a : ArrayBinary) (v : List Nat) {ndx i : Nat}
    (hndx : ndx ≤ a.Size) (h1 : ndx ≤ i) (h2 : i < a.Size) :
    (a.Insert ndx v).m_offsets.getD (i + 1) 0 = a.m_offsets.getD i 0 + v.length := by
  have hl : (a.m_offsets.take ndx ++ [a.startOf ndx + v.length]).length = ndx + 1 := by
    rw [List.length_append, a.take_offsets_length hndx]; rfl
  simp only [Insert]
  rw [getD_append_right (by rw [hl]; omega), hl]
  have h2' : i < a.m_offsets.length := h2
  have e1 : i + 1 - (ndx + 1) = i - ndx := by omega
  rw [e1, getD_map_add (by rw [List.length_drop]; omega), getD_drop]
  have e2 : ndx + (i - ndx) = i := by omega
  rw [e2]

theorem insert_startOf_le (a : ArrayBinary) (v : List Nat) {ndx i : Nat}
    (hndx : ndx ≤ a.Size) (hi : i ≤ ndx) :
    (a.Insert ndx v).startOf i = a.startOf i := by
  unfold startOf
  split
  · rfl
  · next hne => exact a.insert_offsets_lt v hndx (by omega)

theorem startOf_succ (a : ArrayBinary) (i : Nat) :
    a.startOf (i + 1) = a.m_offsets.getD i 0 := by
  unfold startOf
  rw [if_neg (Nat.succ_ne_zero i), Nat.add_sub_cancel]

theorem insert_startOf_gt (a : ArrayBinary) (v : List Nat) {ndx i : Nat}
    (hndx : ndx ≤ a.Size) (h1 : ndx ≤ i) (h2 : i ≤ a.Size) :
    (a.Insert ndx v).startOf (i + 1) = a.startOf i + v.length := by
  rw [startOf_succ]
  rcases eq_or_lt_of_le h1 with heq | hlt
  · subst heq
    exact a.insert_offsets_at v hndx
  · have e : i = (i - 1) + 1 := by omega
    rw [e, a.insert_offsets_gt v hndx (by omega)
      (by show _ < a.m_offsets.length; have h2' : i ≤ a.m_offsets.length := h2; omega)]
    rw [startOf_succ]

theorem insert_Get_lt (a : ArrayBinary) (hwf : a.WF) (v : List Nat) {ndx i : Nat}
    (hndx : ndx ≤ a.Size) (hi : i < ndx) :
    (a.Insert ndx v).Get i = a.Get i ∧ (a.Insert ndx v).GetLen i = a.GetLen i := by
  have hoff : (a.Insert ndx v).m_offsets.getD i 0 = a.m_offsets.getD i 0 :=
    a.insert_offsets_lt v hndx hi
  have hstart : (a.Insert ndx v).startOf i = a.startOf i :=
    a.insert_startOf_le v hndx (le_of_lt hi)
  have hndx0 : ndx ≠ 0 := by omega
  have hb : a.m_offsets.getD i 0 ≤ a.startOf ndx := by
    unfold startOf
    rw [if_neg hndx0]
    exact a.getD_mono hwf (by omega)
      (by show _ < a.m_offsets.length; have : ndx ≤ a.m_offsets.length := hndx; omega)
  have hpos : a.startOf ndx ≤ a.m_blob.length := a.startOf_le_blob hwf hndx
  constructor
  · show slice (a.Insert ndx v).m_blob _ _ = _
    rw [hoff, hstart]
    show slice (a.m_blob.take (a.startOf ndx) ++ v ++ a.m_blob.drop (a.startOf ndx)) _ _ = _
    rw [List.append_assoc]
    exact slice_prefix _ _ _ _ _ hb hpos
  · show (a.Insert ndx v).m_offsets.getD i 0 - (a.Insert ndx v).startOf i = _
    rw [hoff, hstart]
    rfl

theorem insert_Get_at (a : ArrayBinary) (hwf : a.WF) (v : List Nat) {ndx : Nat}
    (hndx : ndx ≤ a.Size) :
    (a.Insert ndx v).Get ndx = v ∧ (a.Insert ndx v).GetLen ndx = v.length := by
  have hoff : (a.Insert ndx v).m_offsets.getD ndx 0 = a.startOf ndx + v.length :=
    a.insert_offsets_at v hndx
  have hstart : (a.Insert ndx v).startOf ndx = a.startOf ndx :=
    a.insert_startOf_le v hndx (le_refl ndx)
  have hpos : a.startOf ndx ≤ a.m_blob.length := a.startOf_le_blob hwf hndx
  constructor
  · show slice (a.Insert ndx v).m_blob _ _ = _
    rw [hoff, hstart]
    exact slice_middle _ _ _ hpos
  · show (a.Insert ndx v).m_offsets.getD ndx 0 - (a.Insert ndx v).startOf ndx = _
    rw [hoff, hstart]
    omega

theorem insert_Get_gt (a : ArrayBinary) (hwf : a.WF) (v : List Nat) {ndx i : Nat}
    (hndx : ndx ≤ a.Size) (h1 : ndx ≤ i) (h2 : i < a.Size) :
    (a.Insert ndx v).Get (i + 1) = a.Get i ∧
    (a.Insert ndx v).GetLen (i + 1) = a.GetLen i := by
  have hoff : (a.Insert ndx v).m_offsets.getD (i + 1) 0 = a.m_offsets.getD i 0 + v.length :=
    a.insert_offsets_gt v hndx h1 h2
  have hstart : (a.Insert ndx v).startOf (i + 1) = a.startOf i + v.length :=
    a.insert_startOf_gt v hndx h1 (le_of_lt h2)
  have hpos : a.startOf ndx ≤ a.m_blob.length := a.startOf_le_blob hwf hndx
  have hmono : a.startOf ndx ≤ a.startOf i := a.startOf_mono hwf h1 (le_of_lt h2)
  have hab : a.startOf i ≤ a.m_offsets.getD i 0 := a.startOf_le_getD hwf h2
  constructor
  · show slice (a.Insert ndx v).m_blob _ _ = _
    rw [hoff, hstart]
    have e1 : a.startOf i + v.length =
        a.startOf i - a.startOf ndx + a.startOf ndx + v.length := by omega
    have e2 : a.m_offsets.getD i 0 + v.length =
        a.m_offsets.getD i 0 - a.startOf ndx + a.startOf ndx + v.length := by omega
    rw [e1, e2]
    exact slice_after a.m_blob v (a.startOf i) (a.m_offsets.getD i 0)
      (a.startOf ndx) (a.startOf ndx) (le_refl _) hpos hmono hab
  · show (a.Insert ndx v).m_offsets.getD (i + 1) 0 - (a.Insert ndx v).startOf (i + 1) = _
    rw [hoff, hstart]
    show _ = a.m_offsets.getD i 0 - a.startOf i
    omega

theorem delete_offsets_lt (a : ArrayBinary) {ndx i : Nat}
    (hndx : ndx < a.Size) (hi : i < ndx) :
    (a.Delete ndx).m_offsets.getD i 0 = a.m_offsets.getD i 0 := by
  simp only [Delete]
  rw [getD_append_left (by rw [a.take_offsets_length (le_of_lt hndx)]; exact hi)]
  exact getD_take hi

theorem delete_offsets_ge (a : ArrayBinary) {ndx i : Nat}
    (hndx : ndx < a.Size) (h1 : ndx ≤ i) (h2 : i + 1 < a.Size) :
    (a.Delete ndx).m_offsets.getD i 0 =
      a.m_offsets.getD (i + 1) 0 - (a.m_offsets.getD ndx 0 - a.startOf ndx) := by
  simp only [Delete]
  rw [getD_append_right (by rw [a.take_offsets_length (le_of_lt hndx)]; exact h1)]
  rw [a.take_offsets_length (le_of_lt hndx)]
  have h2' : i + 1 < a.m_offsets.length := h2
  rw [getD_map_sub (by rw [List.length_drop]; omega), getD_drop]
  have e : ndx + 1 + (i - ndx) = i + 1 := by omega
  rw [e]

theorem delete_startOf_le (a : ArrayBinary) {ndx i : Nat}
    (hndx : ndx < a.Size) (hi : i ≤ ndx) :
    (a.Delete ndx).startOf i = a.startOf i := by
  unfold startOf
  split
  · rfl
  · next hne => exact a.delete_offsets_lt hndx (by omega)

theorem delete_startOf_ge (a : ArrayBinary) (hwf : a.WF) {ndx i : Nat}
    (hndx : ndx < a.Size) (h1 : ndx ≤ i) (h2 : i + 1 < a.Size) :
    (a.Delete ndx).startOf i =
      a.startOf (i + 1) - (a.m_offsets.getD ndx 0 - a.startOf ndx) := by
  rcases eq_or_lt_of_le h1 with heq | hlt
  · subst heq
    rw [a.delete_startOf_le hndx (le_refl _), startOf_succ]
    have hle : a.startOf ndx ≤ a.m_offsets.getD ndx 0 := a.startOf_le_getD hwf hndx
    omega
  · have e : i = (i - 1) + 1 := by omega
    rw [e, startOf_succ, startOf_succ]
    have e2 : i - 1 + 1 = i := by omega
    rw [e2]
    rw [a.delete_offsets_ge hndx (by omega) (by omega)]
    rw [e2]

theorem delete_Get_lt (a : ArrayBinary) (hwf : a.WF) {ndx i : Nat}
    (hndx : ndx < a.Size) (hi : i < ndx) :
    (a.Delete ndx).Get i = a.Get i ∧ (a.Delete ndx).GetLen i = a.GetLen i := by
  have hoff : (a.Delete ndx).m_offsets.getD i 0 = a.m_offsets.getD i 0 :=
    a.delete_offsets_lt hndx hi
  have hstart : (a.Delete ndx).startOf i = a.startOf i :=
    a.delete_startOf_le hndx (le_of_lt hi)
  have hndx0 : ndx ≠ 0 := by omega
  have hb : a.m_offsets.getD i 0 ≤ a.startOf ndx := by
    unfold startOf
    rw [if_neg hndx0]
    exact a.getD_mono hwf (by omega)
      (by show _ < a.m_offsets.length; have hx : ndx < a.m_offsets.length := hndx; omega)
  have hpos : a.startOf ndx ≤ a.m_blob.length := a.startOf_le_blob hwf (le_of_lt hndx)
  constructor
  · show slice (a.Delete ndx).m_blob _ _ = _
    rw [hoff, hstart]
    exact slice_prefix _ _ _ _ _ hb hpos
  · show (a.Delete ndx).m_offsets.getD i 0 - (a.Delete ndx).startOf i = _
    rw [hoff, hstart]
    rfl

theorem delete_Get_ge (a : ArrayBinary) (hwf : a.WF) {ndx i : Nat}
    (hndx : ndx < a.Size) (h1 : ndx ≤ i) (h2 : i + 1 < a.Size) :
    (a.Delete ndx).Get i = a.Get (i + 1) ∧
    (a.Delete ndx).GetLen i = a.GetLen (i + 1) := by
  have hoff := a.delete_offsets_ge hndx h1 h2
  have hstart := a.delete_startOf_ge hwf hndx h1 h2
  have hss : a.startOf ndx ≤ a.m_offsets.getD ndx 0 := a.startOf_le_getD hwf hndx
  have hstop : a.m_offsets.getD ndx 0 ≤ a.m_blob.length := a.getD_le_blob hwf hndx
  have hsa : a.m_offsets.getD ndx 0 ≤ a.startOf (i + 1) := by
    rw [← a.startOf_succ ndx]
    exact a.startOf_mono hwf (by omega) (le_of_lt h2)
  have hab : a.startOf (i + 1) ≤ a.m_offsets.getD (i + 1) 0 :=
    a.startOf_le_getD hwf h2
  constructor
  · show slice (a.Delete ndx).m_blob _ _ = _
    rw [hoff, hstart]
    have hsl := slice_after a.m_blob [] (a.startOf (i + 1)) (a.m_offsets.getD (i + 1) 0)
      (a.startOf ndx) (a.m_offsets.getD ndx 0) hss hstop hsa hab
    simp only [List.length_nil, List.append_nil, Nat.add_zero] at hsl
    have e1 : a.startOf (i + 1) - (a.m_offsets.getD ndx 0 - a.startOf ndx) =
        a.startOf (i + 1) - a.m_offsets.getD ndx 0 + a.startOf ndx := by omega
    have e2 : a.m_offsets.getD (i + 1) 0 - (a.m_offsets.getD ndx 0 - a.startOf ndx) =
        a.m_offsets.getD (i + 1) 0 - a.m_offsets.getD ndx 0 + a.startOf ndx := by omega
    rw [e1, e2]
    exact hsl
  · show (a.Delete ndx).m_offsets.getD i 0 - (a.Delete ndx).startOf i = _
    rw [hoff, hstart]
    show _ = a.m_offsets.getD (i + 1) 0 - a.startOf (i + 1)
    omega

end ArrayBinary

/-- C7: for every `ArrayBinary` (offsets array plus concatenated payload
blob) satisfying its representation invariant and every valid index,
`Insert(ndx, value, len)` increases `Size` by one, makes `Get(ndx)`/`GetLen(ndx)`
return the inserted bytes and length, leaves every other element's bytes and
length unchanged, and increases every offset after position `ndx` by exactly
`len`; `Delete(ndx)` is the inverse, decreasing subsequent offsets by the
removed element's length. -/
theorem C7_array_binary_layout (a : ArrayBinary) (hwf : a.WF) (v : List Nat)
    (ndx : Nat) :
    (ndx ≤ a.Size →
      ((a.Insert ndx v).Size = a.Size + 1 ∧
       (a.Insert ndx v).Get ndx = v ∧
       (a.Insert ndx v).GetLen ndx = v.length ∧
       (∀ i, i < ndx →
         (a.Insert ndx v).Get i = a.Get i ∧ (a.Insert ndx v).GetLen i = a.GetLen i) ∧
       (∀ i, ndx ≤ i → i < a.Size →
         (a.Insert ndx v).Get (i + 1) = a.Get i ∧
         (a.Insert ndx v).GetLen (i + 1) = a.GetLen i ∧
         (a.Insert ndx v).m_offsets.getD (i + 1) 0 = a.m_offsets.getD i 0 + v.length))) ∧
    (ndx < a.Size →
      ((a.Delete ndx).Size = a.Size - 1 ∧
       (∀ i, i < ndx →
         (a.Delete ndx).Get i = a.Get i ∧ (a.Delete ndx).GetLen i = a.GetLen i) ∧
       (∀ i, ndx ≤ i → i + 1 < a.Size →
         (a.Delete ndx).Get i = a.Get (i + 1) ∧
         (a.Delete ndx).GetLen i = a.GetLen (i + 1) ∧
         (a.Delete ndx).m_offsets.getD i 0 =
           a.m_offsets.getD (i + 1) 0 - a.GetLen ndx))) := by
  constructor
  · intro hndx
    refine ⟨?_, (a.insert_Get_at hwf v hndx).1, (a.insert_Get_at hwf v hndx).2,
      fun i hi => a.insert_Get_lt hwf v hndx hi,
      fun i h1 h2 => ⟨(a.insert_Get_gt hwf v hndx h1 h2).1,
        (a.insert_Get_gt hwf v hndx h1 h2).2, a.insert_offsets_gt v hndx h1 h2⟩⟩
    have hndx' : ndx ≤ a.m_offsets.length := hndx
    simp [ArrayBinary.Insert, ArrayBinary.Size]
    omega
  · intro hndx
    refine ⟨?_, fun i hi => a.delete_Get_lt hwf hndx hi,
      fun i h1 h2 => ⟨(a.delete_Get_ge hwf hndx h1 h2).1,
        (a.delete_Get_ge hwf hndx h1 h2).2, a.delete_offsets_ge hndx h1 h2⟩⟩
    have hndx' : ndx < a.m_offsets.length := hndx
    simp [ArrayBinary.Delete, ArrayBinary.Size]
    omega

/-- C8: for every list and an initially empty indices vector,
`sort(indices, true)` fills the vector with a permutation of `[0, size)`
such that the referenced comparison keys are non-decreasing, with null
values (to which unresolved keys are mapped) placed before all non-null
values. -/
theorem C8_lst_sort_ascending {α β : Type} [LinearOrder β] [Inhabited α]
    (vals : List α) (conv : α → WithBot β) :
    (Lst.sort_ascending vals conv []).Perm (List.range vals.length) ∧
    ((Lst.sort_ascending vals conv []).map (lstVal vals conv)).Sorted (· ≤ ·) ∧
    (Lst.sort_ascending vals conv []).Pairwise
      (fun i j => lstVal vals conv j = ⊥ → lstVal vals conv i = ⊥) ∧
    (∀ k : Int, k < 0 → unresolved_to_null k = ⊥) := by
  have hfill : do_sort_fill [] vals.length = List.range vals.length := by
    simp [do_sort_fill]
  have hsorted : List.Pairwise
      (fun i j => (! decide (lstVal vals conv j < lstVal vals conv i)) = true)
      (Lst.sort_ascending vals conv []) := by
    unfold Lst.sort_ascending do_sort
    refine List.sorted_mergeSort ?_ ?_ _
    · intro a b c hab hbc
      simp only [Bool.not_eq_true', decide_eq_false_iff_not, not_lt] at hab hbc ⊢
      exact le_trans hab hbc
    · intro a b
      simp only [Bool.or_eq_true, Bool.not_eq_true', decide_eq_false_iff_not, not_lt]
      exact le_total _ _
  have hsorted' : List.Pairwise
      (fun i j => lstVal vals conv i ≤ lstVal vals conv j)
      (Lst.sort_ascending vals conv []) := by
    refine hsorted.imp ?_
    intro a b h
    simpa [not_lt] using h
  refine ⟨?_, ?_, ?_, ?_⟩
  · unfold Lst.sort_ascending do_sort
    rw [hfill]
    exact List.mergeSort_perm _ _
  · exact List.pairwise_map.mpr hsorted'
  · refine hsorted'.imp ?_
    intro a b h hb
    rw [hb] at h
    exact le_bot_iff.mp h
  · intro k hk
    simp [unresolved_to_null, hk]

/-- Witness for C8 at a concrete list of keys with unresolved entries. -/
theorem C8_lst_sort_ascending_witness :
    (Lst.sort_ascending [(3 : Int), -5, 2] unresolved_to_null []).Perm
      (List.range (List.length [(3 : Int), -5, 2])) ∧
    ((Lst.sort_ascending [(3 : Int), -5, 2] unresolved_to_null []).map
      (lstVal [(3 : Int), -5, 2] unresolved_to_null)).Sorted (· ≤ ·) := by
  have h := C8_lst_sort_ascending [(3 : Int), -5, 2] unresolved_to_null
  exact ⟨h.1, h.2.1⟩

/-- Witness for C7 at a concrete two-element array. -/
theorem C7_array_binary_layout_witness :
    ((ArrayBinary.mk [2, 5] [9, 9, 8, 8, 8]).Insert 1 [7]).Get 1 = [7] ∧
    ((ArrayBinary.mk [2, 5] [9, 9, 8, 8, 8]).Insert 1 [7]).Size = 3 ∧
    ((ArrayBinary.mk [2, 5] [9, 9, 8, 8, 8]).Delete 1).Size = 1 := by
  have h := C7_array_binary_layout (ArrayBinary.mk [2, 5] [9, 9, 8, 8, 8])
    (by constructor <;> decide) [7] 1
  exact ⟨(h.1 (by decide)).2.1, (h.1 (by decide)).1, (h.2 (by decide)).1⟩

end RealmCore
